import Mathlib

/-!
Verification of the pathpy core containers (`pathpy/core/base/containers.py`)
and the temporal network layer (`pathpy/models/temporal_network.py`).

The Python dictionaries are embedded as association lists over `String` keys
(`SMap`), with the exact CPython `dict` semantics used by the source:
assignment to an existing key replaces the value in place, assignment to a
fresh key appends at the end, and `del` removes the entry (a `KeyError` is
modelled as an explicit error value).  `defaultdict(dict)` access that
materialises a missing row is modelled by `vivify`.
-/

set_option autoImplicit false

universe u

/-- Association map with string keys: the embedding of a Python `dict`. -/
abbrev SMap (α : Type u) : Type u := List (String × α)

/-- `d[k]` lookup returning `none` when the key is missing. -/
def lookupL {α : Type u} : SMap α → String → Option α
  | [], _ => none
  | (k', v) :: rest, k => if k' = k then some v else lookupL rest k

/-- Python `k in d`. -/
def containsL {α : Type u} (m : SMap α) (k : String) : Bool :=
  (lookupL m k).isSome

/-- Python `d[k] = v`: replace in place when the key exists, append otherwise
(this is CPython's insertion-order behaviour). -/
def insertL {α : Type u} : SMap α → String → α → SMap α
  | [], k, v => [(k, v)]
  | (k', v') :: rest, k, v =>
    if k' = k then (k, v) :: rest else (k', v') :: insertL rest k v

/-- Python `del d[k]` (the caller checks presence; on a missing key the
source raises `KeyError`, modelled at the call sites). -/
def eraseL {α : Type u} : SMap α → String → SMap α
  | [], _ => []
  | (k', v') :: rest, k =>
    if k' = k then eraseL rest k else (k', v') :: eraseL rest k

/-- Python `d.values()`. -/
def valuesL {α : Type u} (m : SMap α) : List α := m.map Prod.snd

/-- `defaultdict` read access on a nested map: the row for `k`, empty when
the key has never been touched. -/
def rowL {α : Type u} (m : SMap (SMap α)) (k : String) : SMap α :=
  (lookupL m k).getD []

/-- `defaultdict(dict)` access as a statement: reading `m[k]` materialises an
empty row when the key is missing. -/
def vivify {α : Type u} (m : SMap (SMap α)) (k : String) : SMap (SMap α) :=
  if containsL m k then m else insertL m k []

/-- `m[k][k'] = v` on a `defaultdict(dict)`. -/
def rowInsert {α : Type u} (m : SMap (SMap α)) (k k' : String) (v : α) : SMap (SMap α) :=
  insertL m k (insertL (rowL m k) k' v)

/-- `defaultdict(float)` read of a cached degree, `0` when never written. -/
def degL (m : SMap Nat) (k : String) : Nat :=
  (lookupL m k).getD 0

/-- Python `d.update(other)`: insert every entry of `other` in order. -/
def updateL {α : Type} (m other : SMap α) : SMap α :=
  other.foldl (fun acc p => insertL acc p.1 p.2) m

/-- Python `set.update`: union keeping the receiver's elements. -/
def unionSet (a b : List String) : List String :=
  a ++ b.filter (fun x => !(a.contains x))

/-- A node of the graph, identified by its uid (`pathpy.core.node.Node` is
outside the core; the containers only ever use identity / uid of a node). -/
abbrev Node := String

/-- An edge object as seen by the containers: uid, tail `v`, head `w`, and the
directedness flag consulted by `EdgeDict.directed`. -/
structure Edge where
  uid : String
  v : Node
  w : Node
  directed : Bool := true
deriving DecidableEq, Repr

/-- `edge.nodes.values()`: the edge's node dict is keyed by node uid, so a
self-loop contributes a single entry. -/
def edgeNodes (e : Edge) : List Node :=
  if e.v = e.w then [e.v] else [e.v, e.w]

/-- The `paths` field of `RelatedObjects`: `__init__` creates a Python `set`
(`self.paths = set()`), and no operation ever turns it into a dict, hence the
single constructor. -/
inductive PyPaths where
  | pyset (elems : List String)
deriving DecidableEq, Repr

/-- `RelatedObjects` (`containers.py` lines 20-61). -/
structure RelatedObjects where
  nodes : SMap Node
  edges : SMap Edge
  paths : PyPaths
deriving DecidableEq, Repr

/-- `RelatedObjects.__init__`. -/
def RelatedObjects.init : RelatedObjects :=
  { nodes := [], edges := [], paths := .pyset [] }

/-- `RelatedObjects.update`: merge the other record's maps and path set. -/
def RelatedObjects.updateWith (r other : RelatedObjects) : RelatedObjects :=
  { nodes := updateL r.nodes other.nodes
    edges := updateL r.edges other.edges
    paths := match r.paths, other.paths with
      | .pyset a, .pyset b => .pyset (unionSet a b) }

/-- `RelatedObjects.add_edge`: `self.edges[edge.uid] = edge`. -/
def RelatedObjects.addEdgeRel (r : RelatedObjects) (e : Edge) : RelatedObjects :=
  { r with edges := insertL r.edges e.uid e }

/-- `RelatedObjects.add_node`: `self.nodes[node.uid] = node`. -/
def RelatedObjects.addNodeRel (r : RelatedObjects) (n : Node) : RelatedObjects :=
  { r with nodes := insertL r.nodes n n }

/-- `RelatedObjects.add_path`: the source executes `self.paths[path.uid] = path`,
but `self.paths` is a `set` (see `__init__`), and item assignment on a Python
set raises `TypeError` unconditionally. -/
def RelatedObjects.add_path (r : RelatedObjects) (p : String) : Except String RelatedObjects :=
  match r.paths with
  | .pyset _ => .error "TypeError: 'set' object does not support item assignment"

/-- `RelatedObjects.remove_path`: rebuild the set (`{p for p in self.paths}`)
and `set.remove` the given path, `KeyError` when absent. -/
def RelatedObjects.remove_path (r : RelatedObjects) (p : String) : Except String RelatedObjects :=
  match r.paths with
  | .pyset es =>
    if es.contains p then .ok { r with paths := .pyset (es.erase p) }
    else .error "KeyError"

/-- `BaseDict` (`containers.py` lines 64-111): the stored entities together
with the `_related` reverse-relationship map; the event counter is untouched
by the claims under study but kept for completeness. -/
structure BaseDict (α : Type) where
  store : SMap α
  related : SMap RelatedObjects
  counter : SMap Int
deriving DecidableEq, Repr

/-- `BaseDict.__setitem__` (lines 79-81): `self._related[key] = RelatedObjects()`
unconditionally, then the dict entry is written. -/
def BaseDict.setItem {α : Type} (d : BaseDict α) (k : String) (v : α) : BaseDict α :=
  { d with related := insertL d.related k RelatedObjects.init
           store := insertL d.store k v }

/-- `BaseDict.delete` (lines 83-85): `del self._related[key]; del self[key]`,
`KeyError` when the key is absent. -/
def BaseDict.deleteKey {α : Type} (d : BaseDict α) (k : String) :
    Except String (BaseDict α) :=
  if containsL d.related k then
    if containsL d.store k then
      .ok { d with related := eraseL d.related k, store := eraseL d.store k }
    else .error "KeyError"
  else .error "KeyError"

/-- `EdgeDict` (`containers.py` lines 436-492), restricted to the state the
`directed` property reads: the stored edges. -/
structure EdgeDict where
  store : SMap Edge
deriving DecidableEq, Repr

/-- `EdgeDict.directed` (lines 484-492): `True` when `all(v.directed ...)`,
`False` when `not any(...)`, `None` otherwise. -/
def EdgeDict.directed (d : EdgeDict) : Option Bool :=
  if (valuesL d.store).all (fun e => e.directed) then some true
  else if !((valuesL d.store).any (fun e => e.directed)) then some false
  else none

/-- `NodeDict` (`containers.py` lines 257-433): the node store, the reverse
relationship map `_related`, and the derived-attribute tables created in
`__init__` (lines 266-275).  Degree tables cache `len(...)` results. -/
structure NodeDict where
  store : SMap Node
  related : SMap RelatedObjects
  successors : SMap (SMap Node)
  predecessors : SMap (SMap Node)
  outgoing : SMap (SMap Edge)
  incoming : SMap (SMap Edge)
  adjacent_nodes : SMap (SMap Node)
  adjacent_edges : SMap (SMap Edge)
  indegrees : SMap Nat
  outdegrees : SMap Nat
  degrees : SMap Nat
deriving DecidableEq, Repr

/-- A freshly constructed `NodeDict`. -/
def NodeDict.init : NodeDict :=
  ⟨[], [], [], [], [], [], [], [], [], [], []⟩

/-- `NodeDict._update_degrees` (lines 371-378): cache
`len(self._attributes[edges][key])` for the three degree/edge-set pairs; the
`defaultdict` read materialises the edge row. -/
def NodeDict.update_degrees (nd : NodeDict) (key : String) : NodeDict :=
  let inc := vivify nd.incoming key
  let out := vivify nd.outgoing key
  let adj := vivify nd.adjacent_edges key
  { nd with
    incoming := inc
    outgoing := out
    adjacent_edges := adj
    indegrees := insertL nd.indegrees key (rowL inc key).length
    outdegrees := insertL nd.outdegrees key (rowL out key).length
    degrees := insertL nd.degrees key (rowL adj key).length }

/-- One iteration of the loop in `NodeDict.add_edge` (lines 283-320) for the
node `u` of the edge: create the related record when missing, merge `other`
when given, register the edge, fill the tail/head attribute rows, update the
degrees, and upsert the node (the final `self.update({...})` is a raw
`dict.update`, which bypasses the overridden `__setitem__`). -/
def NodeDict.addEdgeNode (nd : NodeDict) (e : Edge) (other : Option RelatedObjects)
    (u : String) : NodeDict :=
  let rel0 := if containsL nd.related u then nd.related
              else insertL nd.related u RelatedObjects.init
  let rel1 := match other with
    | some o => insertL rel0 u (((lookupL rel0 u).getD RelatedObjects.init).updateWith o)
    | none => rel0
  let rel2 := insertL rel1 u (((lookupL rel1 u).getD RelatedObjects.init).addEdgeRel e)
  let nd1 := { nd with related := rel2 }
  let nd2 := if u = e.v then
      { nd1 with
        related := insertL nd1.related u
          (((lookupL nd1.related u).getD RelatedObjects.init).addNodeRel e.w)
        successors := rowInsert nd1.successors u e.w e.w
        adjacent_nodes := rowInsert nd1.adjacent_nodes u e.w e.w
        outgoing := rowInsert nd1.outgoing u e.uid e
        adjacent_edges := rowInsert nd1.adjacent_edges u e.uid e }
    else nd1
  let nd3 := if u = e.w then
      { nd2 with
        related := insertL nd2.related u
          (((lookupL nd2.related u).getD RelatedObjects.init).addNodeRel e.v)
        predecessors := rowInsert nd2.predecessors u e.v e.v
        adjacent_nodes := rowInsert nd2.adjacent_nodes u e.v e.v
        incoming := rowInsert nd2.incoming u e.uid e
        adjacent_edges := rowInsert nd2.adjacent_edges u e.uid e }
    else nd2
  let nd4 := nd3.update_degrees u
  { nd4 with store := insertL nd4.store u u }

/-- `NodeDict.add_edge` (lines 283-320): run the loop body for every node of
the edge (one iteration for a self-loop, since `edge.nodes` is keyed by uid). -/
def NodeDict.add_edge (nd : NodeDict) (e : Edge) (other : Option RelatedObjects) : NodeDict :=
  (edgeNodes e).foldl (fun acc u => acc.addEdgeNode e other u) nd

/-- Sequencing of fallible statements: once an exception has been raised the
remaining statements of the Python call do not run, and the partially mutated
object is what the caller observes. -/
def stepE (s : NodeDict × Option String) (f : NodeDict → NodeDict × Option String) :
    NodeDict × Option String :=
  match s.2 with
  | some _ => s
  | none => f s.1

/-- `self._related[node.uid].remove_edge(edge)` (line 329): `del edges[uid]`,
`KeyError` when the relation was never recorded.  (When `u` has no related
record at all, CPython's `defaultdict(dict)` would materialise a plain dict
and the method access would raise `AttributeError`; the claims never reach
that state, and the partial dict it leaves is not modelled.) -/
def remRelEdge (e : Edge) (u : String) (nd : NodeDict) : NodeDict × Option String :=
  match lookupL nd.related u with
  | none => (nd, some "AttributeError")
  | some r =>
    if containsL r.edges e.uid then
      ({ nd with related := insertL nd.related u { r with edges := eraseL r.edges e.uid } }, none)
    else (nd, some "KeyError")

/-- `self._related[node.uid].remove_node(x)` (lines 333/340 via lines 49-51):
`del nodes[x.uid]`, `KeyError` when absent. -/
def remRelNode (x : String) (u : String) (nd : NodeDict) : NodeDict × Option String :=
  match lookupL nd.related u with
  | none => (nd, some "AttributeError")
  | some r =>
    if containsL r.nodes x then
      ({ nd with related := insertL nd.related u { r with nodes := eraseL r.nodes x } }, none)
    else (nd, some "KeyError")

/-- `del self._attributes['successors'][u][k]`: the outer `defaultdict` read
materialises the row, the inner `del` raises `KeyError` when `k` is absent. -/
def delSuccEntry (u k : String) (nd : NodeDict) : NodeDict × Option String :=
  let m := vivify nd.successors u
  let row := rowL m u
  if containsL row k then ({ nd with successors := insertL m u (eraseL row k) }, none)
  else ({ nd with successors := m }, some "KeyError")

/-- `del self._attributes['predecessors'][u][k]`. -/
def delPredEntry (u k : String) (nd : NodeDict) : NodeDict × Option String :=
  let m := vivify nd.predecessors u
  let row := rowL m u
  if containsL row k then ({ nd with predecessors := insertL m u (eraseL row k) }, none)
  else ({ nd with predecessors := m }, some "KeyError")

/-- `del self._attributes['adjacent_nodes'][u][k]`. -/
def delAdjNodesEntry (u k : String) (nd : NodeDict) : NodeDict × Option String :=
  let m := vivify nd.adjacent_nodes u
  let row := rowL m u
  if containsL row k then ({ nd with adjacent_nodes := insertL m u (eraseL row k) }, none)
  else ({ nd with adjacent_nodes := m }, some "KeyError")

/-- `del self._attributes['outgoing'][u][k]`. -/
def delOutEntry (u k : String) (nd : NodeDict) : NodeDict × Option String :=
  let m := vivify nd.outgoing u
  let row := rowL m u
  if containsL row k then ({ nd with outgoing := insertL m u (eraseL row k) }, none)
  else ({ nd with outgoing := m }, some "KeyError")

/-- `del self._attributes['incoming'][u][k]`. -/
def delIncEntry (u k : String) (nd : NodeDict) : NodeDict × Option String :=
  let m := vivify nd.incoming u
  let row := rowL m u
  if containsL row k then ({ nd with incoming := insertL m u (eraseL row k) }, none)
  else ({ nd with incoming := m }, some "KeyError")

/-- `del self._attributes['adjacent_edges'][u][k]`. -/
def delAdjEdgesEntry (u k : String) (nd : NodeDict) : NodeDict × Option String :=
  let m := vivify nd.adjacent_edges u
  let row := rowL m u
  if containsL row k then ({ nd with adjacent_edges := insertL m u (eraseL row k) }, none)
  else ({ nd with adjacent_edges := m }, some "KeyError")

/-- The `if node == edge.v` block of `NodeDict.remove_edge` (lines 332-337). -/
def removeTailPart (e : Edge) (u : String) (nd : NodeDict) : NodeDict × Option String :=
  if u = e.v then
    stepE (stepE (stepE (stepE (remRelNode e.w u nd)
      (delSuccEntry u e.w)) (delAdjNodesEntry u e.w)) (delOutEntry u e.uid))
      (delAdjEdgesEntry u e.uid)
  else (nd, none)

/-- The `if node == edge.w` block of `NodeDict.remove_edge` (lines 339-344). -/
def removeHeadPart (e : Edge) (u : String) (nd : NodeDict) : NodeDict × Option String :=
  if u = e.w then
    stepE (stepE (stepE (stepE (remRelNode e.v u nd)
      (delPredEntry u e.v)) (delAdjNodesEntry u e.v)) (delIncEntry u e.uid))
      (delAdjEdgesEntry u e.uid)
  else (nd, none)

/-- One iteration of the loop in `NodeDict.remove_edge` (lines 322-347). -/
def NodeDict.removeEdgeNode (nd : NodeDict) (e : Edge) (u : String) :
    NodeDict × Option String :=
  stepE (stepE (stepE (remRelEdge e u nd) (removeTailPart e u)) (removeHeadPart e u))
    (fun m => (m.update_degrees u, none))

/-- `NodeDict.remove_edge` (lines 322-347): iterate over the edge's nodes; a
raised error aborts the remaining iterations and leaves the partial state. -/
def NodeDict.remove_edge (nd : NodeDict) (e : Edge) : NodeDict × Option String :=
  (edgeNodes e).foldl (fun s u => stepE s (fun m => m.removeEdgeNode e u)) (nd, none)

/-- `NodeDict.delete` (lines 355-369): drop the node's own row from each
derived-attribute table (guarded by `if key in ...`, so a missing row is
skipped), then `del self._related[key]`, then `del self[key]`; the latter two
raise `KeyError` when the key is absent. -/
def NodeDict.delete (nd : NodeDict) (k : String) : NodeDict × Option String :=
  let nd1 := { nd with
    successors := eraseL nd.successors k
    predecessors := eraseL nd.predecessors k
    outgoing := eraseL nd.outgoing k
    incoming := eraseL nd.incoming k
    adjacent_nodes := eraseL nd.adjacent_nodes k
    adjacent_edges := eraseL nd.adjacent_edges k
    indegrees := eraseL nd.indegrees k
    outdegrees := eraseL nd.outdegrees k
    degrees := eraseL nd.degrees k }
  if containsL nd1.related k then
    let nd2 := { nd1 with related := eraseL nd1.related k }
    if containsL nd2.store k then ({ nd2 with store := eraseL nd2.store k }, none)
    else (nd2, some "KeyError")
  else (nd1, some "KeyError")

/-- The degree-cache property at one node: the cached values equal the sizes
of the matching edge rows, under `defaultdict` reads. -/
def DegInvAt (nd : NodeDict) (u : String) : Prop :=
  degL nd.indegrees u = (rowL nd.incoming u).length ∧
  degL nd.outdegrees u = (rowL nd.outgoing u).length ∧
  degL nd.degrees u = (rowL nd.adjacent_edges u).length

/-- The degree-cache invariant of the specification: every cached degree
equals the size of the matching edge row, under `defaultdict` reads. -/
def DegInv (nd : NodeDict) : Prop :=
  ∀ u : String, DegInvAt nd u

/-- States reachable from a fresh `NodeDict` by `add_edge` calls and by
`remove_edge` calls that complete without raising. -/
inductive NodeDict.Reach : NodeDict → Prop
  | init : NodeDict.Reach NodeDict.init
  | add (nd : NodeDict) (e : Edge) (other : Option RelatedObjects) :
      NodeDict.Reach nd → NodeDict.Reach (nd.add_edge e other)
  | rem (nd : NodeDict) (e : Edge) :
      NodeDict.Reach nd → (nd.remove_edge e).2 = none →
      NodeDict.Reach (nd.remove_edge e).1

/-! ## Temporal layer (`pathpy/models/temporal_network.py`)

Time values are numbers extended with the `float('-inf')`/`float('inf')`
sentinels used by the source. -/

/-- A time value: `-inf`, a finite number, or `+inf`. -/
inductive ETime where
  | ninf
  | fin (t : Int)
  | pinf
deriving DecidableEq, Repr

/-- `a <= b` on times. -/
def ETime.ble : ETime → ETime → Bool
  | .ninf, _ => true
  | _, .pinf => true
  | .fin a, .fin b => decide (a ≤ b)
  | _, _ => false

/-- `a < b` on times. -/
def ETime.blt (a b : ETime) : Bool := !(ETime.ble b a)

/-- Python's `min` on two times. -/
def ETime.emin (a b : ETime) : ETime := if ETime.ble a b then a else b

/-- Python's `max` on two times. -/
def ETime.emax (a b : ETime) : ETime := if ETime.ble b a then a else b

/-- An entry of the interval tree: `(begin, end, data)` where the data is the
stored edge's uid. -/
structure Iv where
  b : ETime
  e : ETime
  data : String
deriving DecidableEq, Repr

/-- The interval tree of the `intervaltree` package, modelled as its set of
intervals (the spec describes the operations used by the source: insertion,
chopping at a point, and envelope removal). -/
abbrev IvTree := List Iv

/-- `IntervalTree.addi(begin, end, data)`. -/
def treeAddi (t : IvTree) (b e : ETime) (d : String) : IvTree :=
  t ++ [⟨b, e, d⟩]

/-- `IntervalTree.slice(point)`: an interval strictly containing the point is
replaced by its two truncated halves; the others are kept. -/
def treeChop (t : IvTree) (p : ETime) : IvTree :=
  t.flatMap fun iv =>
    if ETime.blt iv.b p && ETime.blt p iv.e then
      [⟨iv.b, p, iv.data⟩, ⟨p, iv.e, iv.data⟩]
    else [iv]

/-- `IntervalTree.remove_envelop(begin, end)`: drop every interval fully
contained in the given range. -/
def removeEnvelop (t : IvTree) (lo hi : ETime) : IvTree :=
  t.filter fun iv => !(ETime.ble lo iv.b && ETime.ble iv.e hi)

/-- `IntervalTree.begin()`: the least interval begin, `0` for an empty tree. -/
def treeBegin : IvTree → ETime
  | [] => .fin 0
  | iv :: rest => rest.foldl (fun acc x => ETime.emin acc x.b) iv.b

/-- `IntervalTree.end()`: the greatest interval end, `0` for an empty tree. -/
def treeEnd : IvTree → ETime
  | [] => .fin 0
  | iv :: rest => rest.foldl (fun acc x => ETime.emax acc x.e) iv.e

/-- `TemporalEdgeCollection`, restricted to the state its temporal queries
read: the interval tree (`self._intervals`). -/
structure TemporalEdgeCollection where
  intervals : IvTree
deriving DecidableEq, Repr

/-- `TemporalEdgeCollection._new_from_intervals`: a fresh collection holding
exactly the given intervals (each edge is re-added with its interval). -/
def newFromIntervals (t : IvTree) : TemporalEdgeCollection := ⟨t⟩

/-- `TemporalEdgeCollection.slice(begin, end)` (lines 172-181): copy the
tree, chop at `begin` and at `end`, then remove the intervals enveloped by
`(original.begin(), begin)` and by `(end, original.end())`. -/
def TemporalEdgeCollection.slice (c : TemporalEdgeCollection) (lo hi : ETime) :
    TemporalEdgeCollection :=
  let tree0 := c.intervals
  let t1 := treeChop tree0 lo
  let t2 := treeChop t1 hi
  let t3 := removeEnvelop t2 (treeBegin tree0) lo
  let t4 := removeEnvelop t3 hi (treeEnd tree0)
  newFromIntervals t4

/-- Insert into a list sorted by the boolean comparison `le`. -/
def insOrd (le : Iv → Iv → Bool) (a : Iv) : List Iv → List Iv
  | [] => [a]
  | x :: xs => if le a x then a :: x :: xs else x :: insOrd le a xs

/-- Insertion sort by the boolean comparison `le`; models Python's `sorted`
up to the order of ties (the source only ever reads tie-independent values
from the sorted list). -/
def sortOrd (le : Iv → Iv → Bool) : List Iv → List Iv
  | [] => []
  | x :: xs => insOrd le x (sortOrd le xs)

/-- Comparison of intervals by begin (Python's lexicographic interval order,
restricted to the component every read of the sorted list depends on). -/
def bleB (x y : Iv) : Bool := ETime.ble x.b y.b

/-- Comparison of intervals by end (`sorted(..., key=lambda x: x[1])`). -/
def bleE (x y : Iv) : Bool := ETime.ble x.e y.e

/-- Descending comparison by end (`sorted(..., key=..., reverse=True)`). -/
def bleEdesc (x y : Iv) : Bool := ETime.ble y.e x.e

/-- `sorted(...)[0][1]`: the end of the first element; the default is never
read because the caller guards against the empty tree. -/
def headE : List Iv → ETime
  | [] => ETime.fin 0
  | iv :: _ => iv.e

/-- `sorted(...)[-1][0]`: the begin of the last element; default unread. -/
def lastB : List Iv → ETime
  | [] => ETime.fin 0
  | [iv] => iv.b
  | _ :: y :: rest => lastB (y :: rest)

/-- `TemporalEdgeCollection.begin` (lines 183-196): with `finite`, scan the
begin-sorted intervals for the first begin above `-inf`, read the least end,
fall back to the least end when every begin is unbounded, and return the
minimum; an empty tree raises `IndexError` under `finite`. -/
def TemporalEdgeCollection.begin (c : TemporalEdgeCollection) (finite : Bool) :
    Option ETime :=
  let b0 := treeBegin c.intervals
  if finite then
    match c.intervals with
    | [] => none
    | _ =>
      let b1 := match (sortOrd bleB c.intervals).find?
          (fun iv => ETime.blt ETime.ninf iv.b) with
        | some iv => iv.b
        | none => b0
      let e1 := headE (sortOrd bleE c.intervals)
      let b2 := if b1 = ETime.ninf ∧ ETime.blt e1 ETime.pinf = true then e1 else b1
      some (ETime.emin b2 e1)
  else some (ETime.emin b0 ETime.pinf)

/-- `TemporalEdgeCollection.end` (lines 198-211), mirror of `begin`. -/
def TemporalEdgeCollection.endT (c : TemporalEdgeCollection) (finite : Bool) :
    Option ETime :=
  let e0 := treeEnd c.intervals
  if finite then
    match c.intervals with
    | [] => none
    | _ =>
      let e1 := match (sortOrd bleEdesc c.intervals).find?
          (fun iv => ETime.blt iv.e ETime.pinf) with
        | some iv => iv.e
        | none => e0
      let b1 := lastB (sortOrd bleB c.intervals)
      let e2 := if ETime.blt ETime.ninf b1 = true ∧ e1 = ETime.pinf then b1 else e1
      some (ETime.emax b1 e2)
  else some (ETime.emax ETime.ninf e0)

/-- Is the time a finite number? -/
def ETime.isFin : ETime → Bool
  | .fin _ => true
  | _ => false

/-- The finite bounds among the stored intervals. -/
def finBounds (t : IvTree) : List ETime :=
  (t.flatMap fun iv => [iv.b, iv.e]).filter ETime.isFin

/-- `TemporalNetwork.add_edge` keyword handling (lines 60-83): `begin`/`end`
default to `-inf`/`+inf`; a numeric `timestamp` overrides them with
`[timestamp, timestamp + duration)` when a numeric `duration` is given, and
with `[timestamp, timestamp + duration_value)` (the configured default
duration) otherwise. -/
def temporalBounds (durationValue : Int) (b? e? : Option ETime)
    (ts? dur? : Option Int) : ETime × ETime :=
  let b0 := b?.getD ETime.ninf
  let e0 := e?.getD ETime.pinf
  match ts? with
  | some ts =>
    match dur? with
    | some d => (ETime.fin ts, ETime.fin (ts + d))
    | none => (ETime.fin ts, ETime.fin (ts + durationValue))
  | none => (b0, e0)

/-- Modelled from the spec: the entity layer between `TemporalNetwork.add_edge`
and `TemporalEdgeCollection._add` (`pathpy.core.network` / `pathpy.core.edge`,
not among the staged sources) stores the computed `begin`/`end` keywords as
edge attributes unchanged, and `_add` (lines 137-145) then inserts
`(begin, end, edge)` into the interval tree.  This composes the staged kwargs
computation with that pass-through and the staged insertion. -/
def TemporalNetwork.add_edge (c : TemporalEdgeCollection) (durationValue : Int)
    (uid : String) (b? e? : Option ETime) (ts? dur? : Option Int) :
    TemporalEdgeCollection :=
  let be := temporalBounds durationValue b? e? ts? dur?
  ⟨treeAddi c.intervals be.1 be.2 uid⟩

theorem lookupL_insertL_self {α : Type u} (m : SMap α) (k : String) (v : α) :
    lookupL (insertL m k v) k = some v := by
  induction m with
  | nil => simp [insertL, lookupL]
  | cons p rest ih =>
    obtain ⟨k', v'⟩ := p
    by_cases h : k' = k <;> simp [insertL, lookupL, h, ih]

theorem lookupL_insertL_ne {α : Type u} (m : SMap α) (k j : String) (v : α)
    (h : j ≠ k) : lookupL (insertL m k v) j = lookupL m j := by
  induction m with
  | nil => simp [insertL, lookupL, Ne.symm h]
  | cons p rest ih =>
    obtain ⟨k', v'⟩ := p
    by_cases hk : k' = k
    · subst hk
      simp [insertL, lookupL, Ne.symm h]
    · simp [insertL, lookupL, hk, ih]

theorem lookupL_eraseL_self {α : Type u} (m : SMap α) (k : String) :
    lookupL (eraseL m k) k = none := by
  induction m with
  | nil => simp [eraseL, lookupL]
  | cons p rest ih =>
    obtain ⟨k', v'⟩ := p
    by_cases h : k' = k <;> simp [eraseL, lookupL, h, ih]

theorem lookupL_eraseL_ne {α : Type u} (m : SMap α) (k j : String)
    (h : j ≠ k) : lookupL (eraseL m k) j = lookupL m j := by
  induction m with
  | nil => simp [eraseL, lookupL]
  | cons p rest ih =>
    obtain ⟨k', v'⟩ := p
    by_cases hk : k' = k
    · subst hk
      simp [eraseL, lookupL, Ne.symm h, ih]
    · simp [eraseL, lookupL, hk, ih]

theorem eraseL_of_not_contains {α : Type u} (m : SMap α) (k : String)
    (h : containsL m k = false) : eraseL m k = m := by
  induction m with
  | nil => rfl
  | cons p rest ih =>
    obtain ⟨k', v'⟩ := p
    by_cases hk : k' = k
    · subst hk
      simp [containsL, lookupL] at h
    · simp only [containsL, lookupL, hk, if_neg hk] at h ⊢
      simp [eraseL, hk, ih h]

theorem eraseL_insertL_cancel {α : Type u} (m : SMap α) (k : String) (v : α)
    (h : containsL m k = false) : eraseL (insertL m k v) k = m := by
  induction m with
  | nil => simp [insertL, eraseL]
  | cons p rest ih =>
    obtain ⟨k', v'⟩ := p
    by_cases hk : k' = k
    · subst hk
      simp [containsL, lookupL] at h
    · simp only [containsL, lookupL, if_neg hk] at h
      simp [insertL, eraseL, hk, ih h]

theorem containsL_insertL_self {α : Type u} (m : SMap α) (k : String) (v : α) :
    containsL (insertL m k v) k = true := by
  simp [containsL, lookupL_insertL_self]

theorem rowL_rowInsert_self {α : Type u} (m : SMap (SMap α)) (k k' : String) (v : α) :
    rowL (rowInsert m k k' v) k = insertL (rowL m k) k' v := by
  simp [rowL, rowInsert, lookupL_insertL_self]

theorem rowL_rowInsert_ne {α : Type u} (m : SMap (SMap α)) (k k' j : String) (v : α)
    (h : j ≠ k) : rowL (rowInsert m k k' v) j = rowL m j := by
  simp [rowL, rowInsert, lookupL_insertL_ne _ _ _ _ h]

theorem rowL_vivify {α : Type u} (m : SMap (SMap α)) (k j : String) :
    rowL (vivify m k) j = rowL m j := by
  unfold vivify
  by_cases hc : containsL m k
  · simp [hc]
  · by_cases hj : j = k
    · subst hj
      cases hlk : lookupL m j with
      | none => simp [hc, rowL, lookupL_insertL_self, hlk]
      | some r => simp [containsL, hlk] at hc
    · simp [hc, rowL, lookupL_insertL_ne _ _ _ _ hj]

theorem lookupL_vivify_ne {α : Type u} (m : SMap (SMap α)) (k j : String)
    (h : j ≠ k) : lookupL (vivify m k) j = lookupL m j := by
  unfold vivify
  by_cases hc : containsL m k
  · simp [hc]
  · simp [hc, lookupL_insertL_ne _ _ _ _ h]

theorem insertL_insertL {α : Type u} (m : SMap α) (k : String) (a b : α) :
    insertL (insertL m k a) k b = insertL m k b := by
  induction m with
  | nil => simp [insertL]
  | cons p rest ih =>
    obtain ⟨k', v'⟩ := p
    by_cases hk : k' = k <;> simp [insertL, hk, ih]

theorem vivify_of_contains {α : Type u} (m : SMap (SMap α)) (k : String)
    (h : containsL m k = true) : vivify m k = m := by
  simp [vivify, h]

theorem rowL_insertL_ne {α : Type u} (m : SMap (SMap α)) (k j : String) (r : SMap α)
    (h : j ≠ k) : rowL (insertL m k r) j = rowL m j := by
  simp [rowL, lookupL_insertL_ne _ _ _ _ h]

theorem rowL_insertL_self {α : Type u} (m : SMap (SMap α)) (k : String) (r : SMap α) :
    rowL (insertL m k r) k = r := by
  simp [rowL, lookupL_insertL_self]

theorem update_degrees_invAt (nd : NodeDict) (u : String) :
    DegInvAt (nd.update_degrees u) u := by
  unfold DegInvAt NodeDict.update_degrees
  refine ⟨?_, ?_, ?_⟩ <;> simp [degL, lookupL_insertL_self, rowL_vivify]

theorem update_degrees_frame (nd : NodeDict) (u j : String) (h : j ≠ u) :
    degL (nd.update_degrees u).indegrees j = degL nd.indegrees j ∧
    degL (nd.update_degrees u).outdegrees j = degL nd.outdegrees j ∧
    degL (nd.update_degrees u).degrees j = degL nd.degrees j ∧
    rowL (nd.update_degrees u).incoming j = rowL nd.incoming j ∧
    rowL (nd.update_degrees u).outgoing j = rowL nd.outgoing j ∧
    rowL (nd.update_degrees u).adjacent_edges j = rowL nd.adjacent_edges j := by
  unfold NodeDict.update_degrees
  refine ⟨?_, ?_, ?_, ?_, ?_, ?_⟩ <;>
    simp [degL, lookupL_insertL_ne _ _ _ _ h, rowL_vivify]

theorem addEdgeNode_pres_invAt_self (nd : NodeDict) (e : Edge)
    (other : Option RelatedObjects) (u : String) :
    DegInvAt (nd.addEdgeNode e other u) u := by
  unfold NodeDict.addEdgeNode
  exact update_degrees_invAt _ u

theorem addEdgeNode_frame (nd : NodeDict) (e : Edge) (other : Option RelatedObjects)
    (u j : String) (h : j ≠ u) :
    degL (nd.addEdgeNode e other u).indegrees j = degL nd.indegrees j ∧
    degL (nd.addEdgeNode e other u).outdegrees j = degL nd.outdegrees j ∧
    degL (nd.addEdgeNode e other u).degrees j = degL nd.degrees j ∧
    rowL (nd.addEdgeNode e other u).incoming j = rowL nd.incoming j ∧
    rowL (nd.addEdgeNode e other u).outgoing j = rowL nd.outgoing j ∧
    rowL (nd.addEdgeNode e other u).adjacent_edges j = rowL nd.adjacent_edges j := by
  unfold NodeDict.addEdgeNode NodeDict.update_degrees
  cases other <;>
    (refine ⟨?_, ?_, ?_, ?_, ?_, ?_⟩ <;>
      (split_ifs <;>
        simp [degL, lookupL_insertL_ne _ _ _ _ h, rowL_vivify,
          rowL_rowInsert_ne, rowL_insertL_ne, h]))

theorem addEdgeNode_pres_inv (nd : NodeDict) (e : Edge) (other : Option RelatedObjects)
    (u : String) (h : DegInv nd) : DegInv (nd.addEdgeNode e other u) := by
  intro j
  by_cases hj : j = u
  · subst hj
    exact addEdgeNode_pres_invAt_self nd e other j
  · obtain ⟨f1, f2, f3, f4, f5, f6⟩ := addEdgeNode_frame nd e other u j hj
    obtain ⟨g1, g2, g3⟩ := h j
    exact ⟨by rw [f1, f4, g1], by rw [f2, f5, g2], by rw [f3, f6, g3]⟩

theorem add_edge_pres_inv (nd : NodeDict) (e : Edge) (other : Option RelatedObjects)
    (h : DegInv nd) : DegInv (nd.add_edge e other) := by
  unfold NodeDict.add_edge edgeNodes
  by_cases hvw : e.v = e.w
  · simp only [hvw, if_pos, List.foldl_cons, List.foldl_nil, ite_true]
    exact addEdgeNode_pres_inv _ _ _ _ h
  · simp only [hvw, List.foldl_cons, List.foldl_nil, ite_false]
    exact addEdgeNode_pres_inv _ _ _ _ (addEdgeNode_pres_inv _ _ _ _ h)

theorem stepE_ok (s : NodeDict × Option String) (f : NodeDict → NodeDict × Option String)
    (h : (stepE s f).2 = none) : s.2 = none ∧ stepE s f = f s.1 := by
  obtain ⟨m, err⟩ := s
  cases err with
  | none => exact ⟨rfl, rfl⟩
  | some msg => simp [stepE] at h

theorem stepE_frame {α : Type} (g : NodeDict → α) (s : NodeDict × Option String)
    (f : NodeDict → NodeDict × Option String) (hf : ∀ m, g (f m).1 = g m) :
    g (stepE s f).1 = g s.1 := by
  obtain ⟨m, err⟩ := s
  cases err with
  | none => exact hf m
  | some msg => rfl

theorem remRelEdge_fst (e : Edge) (u : String) (nd : NodeDict) :
    ∃ R, (remRelEdge e u nd).1 = { nd with related := R } := by
  unfold remRelEdge
  cases lookupL nd.related u with
  | none => exact ⟨nd.related, rfl⟩
  | some r =>
    by_cases hc : containsL r.edges e.uid
    · refine ⟨insertL nd.related u { r with edges := eraseL r.edges e.uid }, ?_⟩
      simp [hc]
    · refine ⟨nd.related, ?_⟩
      simp [hc]

theorem remRelNode_fst (x u : String) (nd : NodeDict) :
    ∃ R, (remRelNode x u nd).1 = { nd with related := R } := by
  unfold remRelNode
  cases lookupL nd.related u with
  | none => exact ⟨nd.related, rfl⟩
  | some r =>
    by_cases hc : containsL r.nodes x
    · refine ⟨insertL nd.related u { r with nodes := eraseL r.nodes x }, ?_⟩
      simp [hc]
    · refine ⟨nd.related, ?_⟩
      simp [hc]

theorem delSuccEntry_fst (u k : String) (nd : NodeDict) :
    ∃ X, (delSuccEntry u k nd).1 = { nd with successors := X } ∧
      ∀ j, j ≠ u → rowL X j = rowL nd.successors j := by
  unfold delSuccEntry
  by_cases hc : containsL (rowL (vivify nd.successors u) u) k
  · refine ⟨insertL (vivify nd.successors u) u (eraseL (rowL (vivify nd.successors u) u) k), ?_, ?_⟩
    · simp [hc]
    · intro j hj
      rw [rowL_insertL_ne _ _ _ _ hj, rowL_vivify]
  · refine ⟨vivify nd.successors u, ?_, ?_⟩
    · simp [hc]
    · intro j hj
      exact rowL_vivify _ _ _

theorem delPredEntry_fst (u k : String) (nd : NodeDict) :
    ∃ X, (delPredEntry u k nd).1 = { nd with predecessors := X } ∧
      ∀ j, j ≠ u → rowL X j = rowL nd.predecessors j := by
  unfold delPredEntry
  by_cases hc : containsL (rowL (vivify nd.predecessors u) u) k
  · refine ⟨insertL (vivify nd.predecessors u) u (eraseL (rowL (vivify nd.predecessors u) u) k), ?_, ?_⟩
    · simp [hc]
    · intro j hj
      rw [rowL_insertL_ne _ _ _ _ hj, rowL_vivify]
  · refine ⟨vivify nd.predecessors u, ?_, ?_⟩
    · simp [hc]
    · intro j hj
      exact rowL_vivify _ _ _

theorem delAdjNodesEntry_fst (u k : String) (nd : NodeDict) :
    ∃ X, (delAdjNodesEntry u k nd).1 = { nd with adjacent_nodes := X } ∧
      ∀ j, j ≠ u → rowL X j = rowL nd.adjacent_nodes j := by
  unfold delAdjNodesEntry
  by_cases hc : containsL (rowL (vivify nd.adjacent_nodes u) u) k
  · refine ⟨insertL (vivify nd.adjacent_nodes u) u (eraseL (rowL (vivify nd.adjacent_nodes u) u) k), ?_, ?_⟩
    · simp [hc]
    · intro j hj
      rw [rowL_insertL_ne _ _ _ _ hj, rowL_vivify]
  · refine ⟨vivify nd.adjacent_nodes u, ?_, ?_⟩
    · simp [hc]
    · intro j hj
      exact rowL_vivify _ _ _

theorem delOutEntry_fst (u k : String) (nd : NodeDict) :
    ∃ X, (delOutEntry u k nd).1 = { nd with outgoing := X } ∧
      ∀ j, j ≠ u → rowL X j = rowL nd.outgoing j := by
  unfold delOutEntry
  by_cases hc : containsL (rowL (vivify nd.outgoing u) u) k
  · refine ⟨insertL (vivify nd.outgoing u) u (eraseL (rowL (vivify nd.outgoing u) u) k), ?_, ?_⟩
    · simp [hc]
    · intro j hj
      rw [rowL_insertL_ne _ _ _ _ hj, rowL_vivify]
  · refine ⟨vivify nd.outgoing u, ?_, ?_⟩
    · simp [hc]
    · intro j hj
      exact rowL_vivify _ _ _

theorem delIncEntry_fst (u k : String) (nd : NodeDict) :
    ∃ X, (delIncEntry u k nd).1 = { nd with incoming := X } ∧
      ∀ j, j ≠ u → rowL X j = rowL nd.incoming j := by
  unfold delIncEntry
  by_cases hc : containsL (rowL (vivify nd.incoming u) u) k
  · refine ⟨insertL (vivify nd.incoming u) u (eraseL (rowL (vivify nd.incoming u) u) k), ?_, ?_⟩
    · simp [hc]
    · intro j hj
      rw [rowL_insertL_ne _ _ _ _ hj, rowL_vivify]
  · refine ⟨vivify nd.incoming u, ?_, ?_⟩
    · simp [hc]
    · intro j hj
      exact rowL_vivify _ _ _

theorem delAdjEdgesEntry_fst (u k : String) (nd : NodeDict) :
    ∃ X, (delAdjEdgesEntry u k nd).1 = { nd with adjacent_edges := X } ∧
      ∀ j, j ≠ u → rowL X j = rowL nd.adjacent_edges j := by
  unfold delAdjEdgesEntry
  by_cases hc : containsL (rowL (vivify nd.adjacent_edges u) u) k
  · refine ⟨insertL (vivify nd.adjacent_edges u) u (eraseL (rowL (vivify nd.adjacent_edges u) u) k), ?_, ?_⟩
    · simp [hc]
    · intro j hj
      rw [rowL_insertL_ne _ _ _ _ hj, rowL_vivify]
  · refine ⟨vivify nd.adjacent_edges u, ?_, ?_⟩
    · simp [hc]
    · intro j hj
      exact rowL_vivify _ _ _

theorem removeTailPart_g_frame {α : Type} (g : NodeDict → α) (e : Edge) (u : String)
    (nd : NodeDict)
    (h1 : ∀ m, g (remRelNode e.w u m).1 = g m)
    (h2 : ∀ m, g (delSuccEntry u e.w m).1 = g m)
    (h3 : ∀ m, g (delAdjNodesEntry u e.w m).1 = g m)
    (h4 : ∀ m, g (delOutEntry u e.uid m).1 = g m)
    (h5 : ∀ m, g (delAdjEdgesEntry u e.uid m).1 = g m) :
    g (removeTailPart e u nd).1 = g nd := by
  unfold removeTailPart
  by_cases hv : u = e.v
  · rw [if_pos hv]
    exact (stepE_frame g _ _ h5).trans ((stepE_frame g _ _ h4).trans
      ((stepE_frame g _ _ h3).trans ((stepE_frame g _ _ h2).trans (h1 nd))))
  · rw [if_neg hv]

theorem removeHeadPart_g_frame {α : Type} (g : NodeDict → α) (e : Edge) (u : String)
    (nd : NodeDict)
    (h1 : ∀ m, g (remRelNode e.v u m).1 = g m)
    (h2 : ∀ m, g (delPredEntry u e.v m).1 = g m)
    (h3 : ∀ m, g (delAdjNodesEntry u e.v m).1 = g m)
    (h4 : ∀ m, g (delIncEntry u e.uid m).1 = g m)
    (h5 : ∀ m, g (delAdjEdgesEntry u e.uid m).1 = g m) :
    g (removeHeadPart e u nd).1 = g nd := by
  unfold removeHeadPart
  by_cases hw : u = e.w
  · rw [if_pos hw]
    exact (stepE_frame g _ _ h5).trans ((stepE_frame g _ _ h4).trans
      ((stepE_frame g _ _ h3).trans ((stepE_frame g _ _ h2).trans (h1 nd))))
  · rw [if_neg hw]

theorem removeEdgeNode_g_frame {α : Type} (g : NodeDict → α) (nd : NodeDict) (e : Edge)
    (u : String)
    (hrelE : ∀ m, g (remRelEdge e u m).1 = g m)
    (hrelNv : ∀ m, g (remRelNode e.v u m).1 = g m)
    (hrelNw : ∀ m, g (remRelNode e.w u m).1 = g m)
    (hsucc : ∀ m, g (delSuccEntry u e.w m).1 = g m)
    (hpred : ∀ m, g (delPredEntry u e.v m).1 = g m)
    (hadjv : ∀ m, g (delAdjNodesEntry u e.v m).1 = g m)
    (hadjw : ∀ m, g (delAdjNodesEntry u e.w m).1 = g m)
    (hout : ∀ m, g (delOutEntry u e.uid m).1 = g m)
    (hinc : ∀ m, g (delIncEntry u e.uid m).1 = g m)
    (hadje : ∀ m, g (delAdjEdgesEntry u e.uid m).1 = g m)
    (hupd : ∀ m : NodeDict, g (m.update_degrees u) = g m) :
    g (nd.removeEdgeNode e u).1 = g nd := by
  unfold NodeDict.removeEdgeNode
  exact (stepE_frame g _ _ (fun m => hupd m)).trans
    ((stepE_frame g _ _
        (fun m => removeHeadPart_g_frame g e u m hrelNv hpred hadjv hinc hadje)).trans
      ((stepE_frame g _ _
          (fun m => removeTailPart_g_frame g e u m hrelNw hsucc hadjw hout hadje)).trans
        (hrelE nd)))

theorem removeEdgeNode_frame (nd : NodeDict) (e : Edge) (u j : String) (h : j ≠ u) :
    degL (nd.removeEdgeNode e u).1.indegrees j = degL nd.indegrees j ∧
    degL (nd.removeEdgeNode e u).1.outdegrees j = degL nd.outdegrees j ∧
    degL (nd.removeEdgeNode e u).1.degrees j = degL nd.degrees j ∧
    rowL (nd.removeEdgeNode e u).1.incoming j = rowL nd.incoming j ∧
    rowL (nd.removeEdgeNode e u).1.outgoing j = rowL nd.outgoing j ∧
    rowL (nd.removeEdgeNode e u).1.adjacent_edges j = rowL nd.adjacent_edges j := by
  refine ⟨?_, ?_, ?_, ?_, ?_, ?_⟩
  · exact removeEdgeNode_g_frame (fun m => degL m.indegrees j) nd e u
      (fun m => by obtain ⟨R, hR⟩ := remRelEdge_fst e u m; rw [hR])
      (fun m => by obtain ⟨R, hR⟩ := remRelNode_fst e.v u m; rw [hR])
      (fun m => by obtain ⟨R, hR⟩ := remRelNode_fst e.w u m; rw [hR])
      (fun m => by obtain ⟨X, hX, -⟩ := delSuccEntry_fst u e.w m; rw [hX])
      (fun m => by obtain ⟨X, hX, -⟩ := delPredEntry_fst u e.v m; rw [hX])
      (fun m => by obtain ⟨X, hX, -⟩ := delAdjNodesEntry_fst u e.v m; rw [hX])
      (fun m => by obtain ⟨X, hX, -⟩ := delAdjNodesEntry_fst u e.w m; rw [hX])
      (fun m => by obtain ⟨X, hX, -⟩ := delOutEntry_fst u e.uid m; rw [hX])
      (fun m => by obtain ⟨X, hX, -⟩ := delIncEntry_fst u e.uid m; rw [hX])
      (fun m => by obtain ⟨X, hX, -⟩ := delAdjEdgesEntry_fst u e.uid m; rw [hX])
      (fun m => (update_degrees_frame m u j h).1)
  · exact removeEdgeNode_g_frame (fun m => degL m.outdegrees j) nd e u
      (fun m => by obtain ⟨R, hR⟩ := remRelEdge_fst e u m; rw [hR])
      (fun m => by obtain ⟨R, hR⟩ := remRelNode_fst e.v u m; rw [hR])
      (fun m => by obtain ⟨R, hR⟩ := remRelNode_fst e.w u m; rw [hR])
      (fun m => by obtain ⟨X, hX, -⟩ := delSuccEntry_fst u e.w m; rw [hX])
      (fun m => by obtain ⟨X, hX, -⟩ := delPredEntry_fst u e.v m; rw [hX])
      (fun m => by obtain ⟨X, hX, -⟩ := delAdjNodesEntry_fst u e.v m; rw [hX])
      (fun m => by obtain ⟨X, hX, -⟩ := delAdjNodesEntry_fst u e.w m; rw [hX])
      (fun m => by obtain ⟨X, hX, -⟩ := delOutEntry_fst u e.uid m; rw [hX])
      (fun m => by obtain ⟨X, hX, -⟩ := delIncEntry_fst u e.uid m; rw [hX])
      (fun m => by obtain ⟨X, hX, -⟩ := delAdjEdgesEntry_fst u e.uid m; rw [hX])
      (fun m => (update_degrees_frame m u j h).2.1)
  · exact removeEdgeNode_g_frame (fun m => degL m.degrees j) nd e u
      (fun m => by obtain ⟨R, hR⟩ := remRelEdge_fst e u m; rw [hR])
      (fun m => by obtain ⟨R, hR⟩ := remRelNode_fst e.v u m; rw [hR])
      (fun m => by obtain ⟨R, hR⟩ := remRelNode_fst e.w u m; rw [hR])
      (fun m => by obtain ⟨X, hX, -⟩ := delSuccEntry_fst u e.w m; rw [hX])
      (fun m => by obtain ⟨X, hX, -⟩ := delPredEntry_fst u e.v m; rw [hX])
      (fun m => by obtain ⟨X, hX, -⟩ := delAdjNodesEntry_fst u e.v m; rw [hX])
      (fun m => by obtain ⟨X, hX, -⟩ := delAdjNodesEntry_fst u e.w m; rw [hX])
      (fun m => by obtain ⟨X, hX, -⟩ := delOutEntry_fst u e.uid m; rw [hX])
      (fun m => by obtain ⟨X, hX, -⟩ := delIncEntry_fst u e.uid m; rw [hX])
      (fun m => by obtain ⟨X, hX, -⟩ := delAdjEdgesEntry_fst u e.uid m; rw [hX])
      (fun m => (update_degrees_frame m u j h).2.2.1)
  · exact removeEdgeNode_g_frame (fun m => rowL m.incoming j) nd e u
      (fun m => by obtain ⟨R, hR⟩ := remRelEdge_fst e u m; rw [hR])
      (fun m => by obtain ⟨R, hR⟩ := remRelNode_fst e.v u m; rw [hR])
      (fun m => by obtain ⟨R, hR⟩ := remRelNode_fst e.w u m; rw [hR])
      (fun m => by obtain ⟨X, hX, -⟩ := delSuccEntry_fst u e.w m; rw [hX])
      (fun m => by obtain ⟨X, hX, -⟩ := delPredEntry_fst u e.v m; rw [hX])
      (fun m => by obtain ⟨X, hX, -⟩ := delAdjNodesEntry_fst u e.v m; rw [hX])
      (fun m => by obtain ⟨X, hX, -⟩ := delAdjNodesEntry_fst u e.w m; rw [hX])
      (fun m => by obtain ⟨X, hX, -⟩ := delOutEntry_fst u e.uid m; rw [hX])
      (fun m => by obtain ⟨X, hX, hrow⟩ := delIncEntry_fst u e.uid m; rw [hX]; exact hrow j h)
      (fun m => by obtain ⟨X, hX, -⟩ := delAdjEdgesEntry_fst u e.uid m; rw [hX])
      (fun m => (update_degrees_frame m u j h).2.2.2.1)
  · exact removeEdgeNode_g_frame (fun m => rowL m.outgoing j) nd e u
      (fun m => by obtain ⟨R, hR⟩ := remRelEdge_fst e u m; rw [hR])
      (fun m => by obtain ⟨R, hR⟩ := remRelNode_fst e.v u m; rw [hR])
      (fun m => by obtain ⟨R, hR⟩ := remRelNode_fst e.w u m; rw [hR])
      (fun m => by obtain ⟨X, hX, -⟩ := delSuccEntry_fst u e.w m; rw [hX])
      (fun m => by obtain ⟨X, hX, -⟩ := delPredEntry_fst u e.v m; rw [hX])
      (fun m => by obtain ⟨X, hX, -⟩ := delAdjNodesEntry_fst u e.v m; rw [hX])
      (fun m => by obtain ⟨X, hX, -⟩ := delAdjNodesEntry_fst u e.w m; rw [hX])
      (fun m => by obtain ⟨X, hX, hrow⟩ := delOutEntry_fst u e.uid m; rw [hX]; exact hrow j h)
      (fun m => by obtain ⟨X, hX, -⟩ := delIncEntry_fst u e.uid m; rw [hX])
      (fun m => by obtain ⟨X, hX, -⟩ := delAdjEdgesEntry_fst u e.uid m; rw [hX])
      (fun m => (update_degrees_frame m u j h).2.2.2.2.1)
  · exact removeEdgeNode_g_frame (fun m => rowL m.adjacent_edges j) nd e u
      (fun m => by obtain ⟨R, hR⟩ := remRelEdge_fst e u m; rw [hR])
      (fun m => by obtain ⟨R, hR⟩ := remRelNode_fst e.v u m; rw [hR])
      (fun m => by obtain ⟨R, hR⟩ := remRelNode_fst e.w u m; rw [hR])
      (fun m => by obtain ⟨X, hX, -⟩ := delSuccEntry_fst u e.w m; rw [hX])
      (fun m => by obtain ⟨X, hX, -⟩ := delPredEntry_fst u e.v m; rw [hX])
      (fun m => by obtain ⟨X, hX, -⟩ := delAdjNodesEntry_fst u e.v m; rw [hX])
      (fun m => by obtain ⟨X, hX, -⟩ := delAdjNodesEntry_fst u e.w m; rw [hX])
      (fun m => by obtain ⟨X, hX, -⟩ := delOutEntry_fst u e.uid m; rw [hX])
      (fun m => by obtain ⟨X, hX, -⟩ := delIncEntry_fst u e.uid m; rw [hX])
      (fun m => by obtain ⟨X, hX, hrow⟩ := delAdjEdgesEntry_fst u e.uid m; rw [hX]; exact hrow j h)
      (fun m => (update_degrees_frame m u j h).2.2.2.2.2)

theorem removeEdgeNode_pres_inv (nd : NodeDict) (e : Edge) (u : String)
    (hok : (nd.removeEdgeNode e u).2 = none) (h : DegInv nd) :
    DegInv (nd.removeEdgeNode e u).1 := by
  intro j
  by_cases hj : j = u
  · subst hj
    unfold NodeDict.removeEdgeNode at hok ⊢
    obtain ⟨h3, heq⟩ := stepE_ok _ _ hok
    rw [heq]
    exact update_degrees_invAt _ j
  · obtain ⟨f1, f2, f3, f4, f5, f6⟩ := removeEdgeNode_frame nd e u j hj
    obtain ⟨g1, g2, g3⟩ := h j
    exact ⟨by rw [f1, f4, g1], by rw [f2, f5, g2], by rw [f3, f6, g3]⟩

theorem remove_edge_pres_inv (nd : NodeDict) (e : Edge)
    (hok : (nd.remove_edge e).2 = none) (h : DegInv nd) :
    DegInv (nd.remove_edge e).1 := by
  unfold NodeDict.remove_edge edgeNodes at hok ⊢
  by_cases hvw : e.v = e.w
  · rw [if_pos hvw] at hok ⊢
    simp only [List.foldl_cons, List.foldl_nil] at hok ⊢
    exact removeEdgeNode_pres_inv _ _ _ hok h
  · rw [if_neg hvw] at hok ⊢
    simp only [List.foldl_cons, List.foldl_nil] at hok ⊢
    obtain ⟨h1ok, heq⟩ := stepE_ok _ _ hok
    rw [heq] at hok ⊢
    exact removeEdgeNode_pres_inv _ _ _ hok (removeEdgeNode_pres_inv _ _ _ h1ok h)

theorem reach_degInv (nd : NodeDict) (h : NodeDict.Reach nd) : DegInv nd := by
  induction h with
  | init => exact fun u => ⟨rfl, rfl, rfl⟩
  | add nd e other hr ih => exact add_edge_pres_inv nd e other ih
  | rem nd e hr hok ih => exact remove_edge_pres_inv nd e hok ih

theorem containsL_outer_of_row {α : Type u} (m : SMap (SMap α)) (k x : String)
    (h : containsL (rowL m k) x = true) : containsL m k = true := by
  cases hlk : lookupL m k with
  | none => rw [rowL, hlk] at h; simp [containsL, lookupL] at h
  | some r => simp [containsL, hlk]

theorem stepE_none (m : NodeDict) (f : NodeDict → NodeDict × Option String) :
    stepE (m, none) f = f m := rfl

theorem stepE_some (m : NodeDict) (msg : String)
    (f : NodeDict → NodeDict × Option String) :
    stepE (m, some msg) f = (m, some msg) := rfl

theorem addEdgeNode_tail_spec (nd : NodeDict) (e : Edge) (u : String) (r : RelatedObjects)
    (hv : u = e.v) (hw : u ≠ e.w) (hr : lookupL nd.related u = some r) :
    (nd.addEdgeNode e none u).store = insertL nd.store u u ∧
    (nd.addEdgeNode e none u).related =
      insertL nd.related u ((r.addEdgeRel e).addNodeRel e.w) ∧
    (nd.addEdgeNode e none u).successors = rowInsert nd.successors u e.w e.w ∧
    (nd.addEdgeNode e none u).predecessors = nd.predecessors ∧
    (nd.addEdgeNode e none u).outgoing = rowInsert nd.outgoing u e.uid e ∧
    (nd.addEdgeNode e none u).incoming = vivify nd.incoming u ∧
    (nd.addEdgeNode e none u).adjacent_nodes = rowInsert nd.adjacent_nodes u e.w e.w ∧
    (nd.addEdgeNode e none u).adjacent_edges = rowInsert nd.adjacent_edges u e.uid e ∧
    (nd.addEdgeNode e none u).indegrees =
      insertL nd.indegrees u (rowL nd.incoming u).length ∧
    (nd.addEdgeNode e none u).outdegrees =
      insertL nd.outdegrees u (insertL (rowL nd.outgoing u) e.uid e).length ∧
    (nd.addEdgeNode e none u).degrees =
      insertL nd.degrees u (insertL (rowL nd.adjacent_edges u) e.uid e).length := by
  have hc : containsL nd.related u = true := by simp [containsL, hr]
  unfold NodeDict.addEdgeNode NodeDict.update_degrees
  refine ⟨?_, ?_, ?_, ?_, ?_, ?_, ?_, ?_, ?_, ?_, ?_⟩ <;>
    simp [if_pos hv, if_neg hw, hc, hr, lookupL_insertL_self, insertL_insertL,
      vivify_of_contains, containsL_insertL_self, rowInsert, rowL_insertL_self,
      rowL_vivify]

theorem addEdgeNode_head_spec (nd : NodeDict) (e : Edge) (u : String) (r : RelatedObjects)
    (hw : u = e.w) (hv : u ≠ e.v) (hr : lookupL nd.related u = some r) :
    (nd.addEdgeNode e none u).store = insertL nd.store u u ∧
    (nd.addEdgeNode e none u).related =
      insertL nd.related u ((r.addEdgeRel e).addNodeRel e.v) ∧
    (nd.addEdgeNode e none u).successors = nd.successors ∧
    (nd.addEdgeNode e none u).predecessors = rowInsert nd.predecessors u e.v e.v ∧
    (nd.addEdgeNode e none u).outgoing = vivify nd.outgoing u ∧
    (nd.addEdgeNode e none u).incoming = rowInsert nd.incoming u e.uid e ∧
    (nd.addEdgeNode e none u).adjacent_nodes = rowInsert nd.adjacent_nodes u e.v e.v ∧
    (nd.addEdgeNode e none u).adjacent_edges = rowInsert nd.adjacent_edges u e.uid e ∧
    (nd.addEdgeNode e none u).indegrees =
      insertL nd.indegrees u (insertL (rowL nd.incoming u) e.uid e).length ∧
    (nd.addEdgeNode e none u).outdegrees =
      insertL nd.outdegrees u (rowL nd.outgoing u).length ∧
    (nd.addEdgeNode e none u).degrees =
      insertL nd.degrees u (insertL (rowL nd.adjacent_edges u) e.uid e).length := by
  have hc : containsL nd.related u = true := by simp [containsL, hr]
  unfold NodeDict.addEdgeNode NodeDict.update_degrees
  refine ⟨?_, ?_, ?_, ?_, ?_, ?_, ?_, ?_, ?_, ?_, ?_⟩ <;>
    simp [if_pos hw, if_neg hv, hc, hr, lookupL_insertL_self, insertL_insertL,
      vivify_of_contains, containsL_insertL_self, rowInsert, rowL_insertL_self,
      rowL_vivify]

theorem remRelEdge_ok_eq (e : Edge) (u : String) (nd : NodeDict) (r : RelatedObjects)
    (hr : lookupL nd.related u = some r) (h1 : containsL r.edges e.uid = true) :
    remRelEdge e u nd =
      ({ nd with related := insertL nd.related u { r with edges := eraseL r.edges e.uid } },
        none) := by
  unfold remRelEdge
  rw [hr]
  simp [h1]

theorem remRelNode_ok_eq (x u : String) (nd : NodeDict) (r : RelatedObjects)
    (hr : lookupL nd.related u = some r) (h1 : containsL r.nodes x = true) :
    remRelNode x u nd =
      ({ nd with related := insertL nd.related u { r with nodes := eraseL r.nodes x } },
        none) := by
  unfold remRelNode
  rw [hr]
  simp [h1]

theorem remRelNode_err_eq (x u : String) (nd : NodeDict) (r : RelatedObjects)
    (hr : lookupL nd.related u = some r) (h1 : containsL r.nodes x = false) :
    remRelNode x u nd = (nd, some "KeyError") := by
  unfold remRelNode
  rw [hr]
  simp [h1]

theorem delSuccEntry_ok_eq (u k : String) (nd : NodeDict)
    (h : containsL (rowL nd.successors u) k = true) :
    delSuccEntry u k nd =
      ({ nd with successors := insertL nd.successors u (eraseL (rowL nd.successors u) k) },
        none) := by
  have hc := containsL_outer_of_row nd.successors u k h
  unfold delSuccEntry
  rw [vivify_of_contains _ _ hc]
  simp [h]

theorem delPredEntry_ok_eq (u k : String) (nd : NodeDict)
    (h : containsL (rowL nd.predecessors u) k = true) :
    delPredEntry u k nd =
      ({ nd with predecessors := insertL nd.predecessors u (eraseL (rowL nd.predecessors u) k) },
        none) := by
  have hc := containsL_outer_of_row nd.predecessors u k h
  unfold delPredEntry
  rw [vivify_of_contains _ _ hc]
  simp [h]

theorem delAdjNodesEntry_ok_eq (u k : String) (nd : NodeDict)
    (h : containsL (rowL nd.adjacent_nodes u) k = true) :
    delAdjNodesEntry u k nd =
      ({ nd with adjacent_nodes :=
          insertL nd.adjacent_nodes u (eraseL (rowL nd.adjacent_nodes u) k) },
        none) := by
  have hc := containsL_outer_of_row nd.adjacent_nodes u k h
  unfold delAdjNodesEntry
  rw [vivify_of_contains _ _ hc]
  simp [h]

theorem delOutEntry_ok_eq (u k : String) (nd : NodeDict)
    (h : containsL (rowL nd.outgoing u) k = true) :
    delOutEntry u k nd =
      ({ nd with outgoing := insertL nd.outgoing u (eraseL (rowL nd.outgoing u) k) },
        none) := by
  have hc := containsL_outer_of_row nd.outgoing u k h
  unfold delOutEntry
  rw [vivify_of_contains _ _ hc]
  simp [h]

theorem delIncEntry_ok_eq (u k : String) (nd : NodeDict)
    (h : containsL (rowL nd.incoming u) k = true) :
    delIncEntry u k nd =
      ({ nd with incoming := insertL nd.incoming u (eraseL (rowL nd.incoming u) k) },
        none) := by
  have hc := containsL_outer_of_row nd.incoming u k h
  unfold delIncEntry
  rw [vivify_of_contains _ _ hc]
  simp [h]

theorem delAdjEdgesEntry_ok_eq (u k : String) (nd : NodeDict)
    (h : containsL (rowL nd.adjacent_edges u) k = true) :
    delAdjEdgesEntry u k nd =
      ({ nd with adjacent_edges :=
          insertL nd.adjacent_edges u (eraseL (rowL nd.adjacent_edges u) k) },
        none) := by
  have hc := containsL_outer_of_row nd.adjacent_edges u k h
  unfold delAdjEdgesEntry
  rw [vivify_of_contains _ _ hc]
  simp [h]

theorem remRelNode_lit_ok (x u : String) (st : SMap Node) (R : SMap RelatedObjects)
    (r1 : RelatedObjects) (sc pr an : SMap (SMap Node)) (og ic ae : SMap (SMap Edge))
    (ind outd dg : SMap Nat) (h1 : containsL r1.nodes x = true) :
    remRelNode x u
      { store := st, related := insertL R u r1, successors := sc, predecessors := pr,
        outgoing := og, incoming := ic, adjacent_nodes := an, adjacent_edges := ae,
        indegrees := ind, outdegrees := outd, degrees := dg } =
      ({ store := st, related := insertL R u { r1 with nodes := eraseL r1.nodes x },
         successors := sc, predecessors := pr, outgoing := og, incoming := ic,
         adjacent_nodes := an, adjacent_edges := ae, indegrees := ind,
         outdegrees := outd, degrees := dg }, none) := by
  unfold remRelNode
  rw [lookupL_insertL_self]
  simp [h1, insertL_insertL]

theorem remRelNode_lit_err (x u : String) (st : SMap Node) (R : SMap RelatedObjects)
    (r1 : RelatedObjects) (sc pr an : SMap (SMap Node)) (og ic ae : SMap (SMap Edge))
    (ind outd dg : SMap Nat) (h1 : containsL r1.nodes x = false) :
    remRelNode x u
      { store := st, related := insertL R u r1, successors := sc, predecessors := pr,
        outgoing := og, incoming := ic, adjacent_nodes := an, adjacent_edges := ae,
        indegrees := ind, outdegrees := outd, degrees := dg } =
      ({ store := st, related := insertL R u r1, successors := sc, predecessors := pr,
         outgoing := og, incoming := ic, adjacent_nodes := an, adjacent_edges := ae,
         indegrees := ind, outdegrees := outd, degrees := dg }, some "KeyError") := by
  unfold remRelNode
  rw [lookupL_insertL_self]
  simp [h1]

theorem removeEdgeNode_tail_ok_spec (nd : NodeDict) (e : Edge) (u : String)
    (r : RelatedObjects) (hv : u = e.v) (hw : u ≠ e.w)
    (hr : lookupL nd.related u = some r)
    (h1 : containsL r.edges e.uid = true)
    (h2 : containsL r.nodes e.w = true)
    (h3 : containsL (rowL nd.successors u) e.w = true)
    (h4 : containsL (rowL nd.adjacent_nodes u) e.w = true)
    (h5 : containsL (rowL nd.outgoing u) e.uid = true)
    (h6 : containsL (rowL nd.adjacent_edges u) e.uid = true) :
    nd.removeEdgeNode e u =
      ({ store := nd.store
         related := insertL nd.related u
           { r with edges := eraseL r.edges e.uid, nodes := eraseL r.nodes e.w }
         successors := insertL nd.successors u (eraseL (rowL nd.successors u) e.w)
         predecessors := nd.predecessors
         outgoing := insertL nd.outgoing u (eraseL (rowL nd.outgoing u) e.uid)
         incoming := vivify nd.incoming u
         adjacent_nodes := insertL nd.adjacent_nodes u (eraseL (rowL nd.adjacent_nodes u) e.w)
         adjacent_edges := insertL nd.adjacent_edges u (eraseL (rowL nd.adjacent_edges u) e.uid)
         indegrees := insertL nd.indegrees u (rowL nd.incoming u).length
         outdegrees := insertL nd.outdegrees u (eraseL (rowL nd.outgoing u) e.uid).length
         degrees := insertL nd.degrees u (eraseL (rowL nd.adjacent_edges u) e.uid).length },
        none) := by
  unfold NodeDict.removeEdgeNode
  rw [remRelEdge_ok_eq e u nd r hr h1, stepE_none]
  unfold removeTailPart removeHeadPart
  rw [if_pos hv]
  simp only [if_neg hw]
  simp only [stepE_none, remRelNode_lit_ok, delSuccEntry_ok_eq, delAdjNodesEntry_ok_eq,
    delOutEntry_ok_eq, delAdjEdgesEntry_ok_eq, lookupL_insertL_self, insertL_insertL,
    h2, h3, h4, h5, h6, NodeDict.update_degrees, vivify_of_contains,
    containsL_insertL_self, rowL_insertL_self, rowL_vivify]

theorem removeEdgeNode_head_ok_spec (nd : NodeDict) (e : Edge) (u : String)
    (r : RelatedObjects) (hw : u = e.w) (hv : u ≠ e.v)
    (hr : lookupL nd.related u = some r)
    (h1 : containsL r.edges e.uid = true)
    (h2 : containsL r.nodes e.v = true)
    (h3 : containsL (rowL nd.predecessors u) e.v = true)
    (h4 : containsL (rowL nd.adjacent_nodes u) e.v = true)
    (h5 : containsL (rowL nd.incoming u) e.uid = true)
    (h6 : containsL (rowL nd.adjacent_edges u) e.uid = true) :
    nd.removeEdgeNode e u =
      ({ store := nd.store
         related := insertL nd.related u
           { r with edges := eraseL r.edges e.uid, nodes := eraseL r.nodes e.v }
         successors := nd.successors
         predecessors := insertL nd.predecessors u (eraseL (rowL nd.predecessors u) e.v)
         outgoing := vivify nd.outgoing u
         incoming := insertL nd.incoming u (eraseL (rowL nd.incoming u) e.uid)
         adjacent_nodes := insertL nd.adjacent_nodes u (eraseL (rowL nd.adjacent_nodes u) e.v)
         adjacent_edges := insertL nd.adjacent_edges u (eraseL (rowL nd.adjacent_edges u) e.uid)
         indegrees := insertL nd.indegrees u (eraseL (rowL nd.incoming u) e.uid).length
         outdegrees := insertL nd.outdegrees u (rowL nd.outgoing u).length
         degrees := insertL nd.degrees u (eraseL (rowL nd.adjacent_edges u) e.uid).length },
        none) := by
  unfold NodeDict.removeEdgeNode
  rw [remRelEdge_ok_eq e u nd r hr h1, stepE_none]
  unfold removeTailPart removeHeadPart
  rw [if_neg hv, stepE_none]
  simp only [if_pos hw]
  simp only [stepE_none, remRelNode_lit_ok, delPredEntry_ok_eq, delAdjNodesEntry_ok_eq,
    delIncEntry_ok_eq, delAdjEdgesEntry_ok_eq, lookupL_insertL_self, insertL_insertL,
    h2, h3, h4, h5, h6, NodeDict.update_degrees, vivify_of_contains,
    containsL_insertL_self, rowL_insertL_self, rowL_vivify]

theorem containsL_eraseL_self {α : Type u} (m : SMap α) (k : String) :
    containsL (eraseL m k) k = false := by
  simp [containsL, lookupL_eraseL_self]

theorem removeEdgeNode_loop_err_spec (nd : NodeDict) (e : Edge) (u : String)
    (r : RelatedObjects) (hv : u = e.v) (hw : u = e.w)
    (hr : lookupL nd.related u = some r)
    (h1 : containsL r.edges e.uid = true)
    (h2 : containsL r.nodes e.w = true)
    (h3 : containsL (rowL nd.successors u) e.w = true)
    (h4 : containsL (rowL nd.adjacent_nodes u) e.w = true)
    (h5 : containsL (rowL nd.outgoing u) e.uid = true)
    (h6 : containsL (rowL nd.adjacent_edges u) e.uid = true) :
    nd.removeEdgeNode e u =
      ({ store := nd.store
         related := insertL nd.related u
           { r with edges := eraseL r.edges e.uid, nodes := eraseL r.nodes e.w }
         successors := insertL nd.successors u (eraseL (rowL nd.successors u) e.w)
         predecessors := nd.predecessors
         outgoing := insertL nd.outgoing u (eraseL (rowL nd.outgoing u) e.uid)
         incoming := nd.incoming
         adjacent_nodes := insertL nd.adjacent_nodes u (eraseL (rowL nd.adjacent_nodes u) e.w)
         adjacent_edges := insertL nd.adjacent_edges u (eraseL (rowL nd.adjacent_edges u) e.uid)
         indegrees := nd.indegrees
         outdegrees := nd.outdegrees
         degrees := nd.degrees },
        some "KeyError") := by
  have hcev : ∀ m : SMap Node, containsL (eraseL m e.w) e.v = false := by
    rw [← hv, ← hw]
    exact fun m => containsL_eraseL_self m u
  unfold NodeDict.removeEdgeNode
  rw [remRelEdge_ok_eq e u nd r hr h1, stepE_none]
  unfold removeTailPart removeHeadPart
  rw [if_pos hv]
  simp only [if_pos hw]
  simp only [stepE_none, stepE_some, remRelNode_lit_ok, remRelNode_lit_err, delSuccEntry_ok_eq,
    delAdjNodesEntry_ok_eq, delOutEntry_ok_eq, delAdjEdgesEntry_ok_eq,
    lookupL_insertL_self, insertL_insertL, h2, h3, h4, h5, h6, hcev,
    containsL_insertL_self, rowL_insertL_self, rowL_vivify]

theorem stepE_of_none (s : NodeDict × Option String)
    (f : NodeDict → NodeDict × Option String) (h : s.2 = none) :
    stepE s f = f s.1 := by
  obtain ⟨m, err⟩ := s
  cases err with
  | none => rfl
  | some msg => simp at h

theorem degL_insertL_self (m : SMap Nat) (k : String) (n : Nat) :
    degL (insertL m k n) k = n := by
  simp [degL, lookupL_insertL_self]

theorem degL_insertL_ne (m : SMap Nat) (k j : String) (n : Nat) (h : j ≠ k) :
    degL (insertL m k n) j = degL m j := by
  simp [degL, lookupL_insertL_ne _ _ _ _ h]

/-- **C2** (amended): inserting an edge with distinct endpoints and then
removing it restores every derived map (successors, predecessors, outgoing,
incoming, adjacent nodes/edges, the three degree caches, under `defaultdict`
reads) and the related-objects records of both endpoints, provided both
endpoints already have related records, the edge is not yet registered in any
of them, no other registered edge links the two endpoints in either
direction, and the degree caches are in sync.  Without the no-parallel-edge
condition the removal also deletes entries contributed by the other edge. -/
theorem add_remove_round_trip (nd : NodeDict) (e : Edge) (rA rB : RelatedObjects)
    (hvw : e.v ≠ e.w)
    (hrA : lookupL nd.related e.v = some rA)
    (hrB : lookupL nd.related e.w = some rB)
    (hA1 : containsL rA.edges e.uid = false)
    (hA2 : containsL rA.nodes e.w = false)
    (hA3 : containsL (rowL nd.successors e.v) e.w = false)
    (hA4 : containsL (rowL nd.adjacent_nodes e.v) e.w = false)
    (hA5 : containsL (rowL nd.outgoing e.v) e.uid = false)
    (hA6 : containsL (rowL nd.adjacent_edges e.v) e.uid = false)
    (hB1 : containsL rB.edges e.uid = false)
    (hB2 : containsL rB.nodes e.v = false)
    (hB3 : containsL (rowL nd.predecessors e.w) e.v = false)
    (hB4 : containsL (rowL nd.adjacent_nodes e.w) e.v = false)
    (hB5 : containsL (rowL nd.incoming e.w) e.uid = false)
    (hB6 : containsL (rowL nd.adjacent_edges e.w) e.uid = false)
    (hinv : DegInv nd) :
    ((nd.add_edge e none).remove_edge e).2 = none ∧
    ∀ j : String,
      rowL ((nd.add_edge e none).remove_edge e).1.successors j = rowL nd.successors j ∧
      rowL ((nd.add_edge e none).remove_edge e).1.predecessors j = rowL nd.predecessors j ∧
      rowL ((nd.add_edge e none).remove_edge e).1.outgoing j = rowL nd.outgoing j ∧
      rowL ((nd.add_edge e none).remove_edge e).1.incoming j = rowL nd.incoming j ∧
      rowL ((nd.add_edge e none).remove_edge e).1.adjacent_nodes j = rowL nd.adjacent_nodes j ∧
      rowL ((nd.add_edge e none).remove_edge e).1.adjacent_edges j = rowL nd.adjacent_edges j ∧
      degL ((nd.add_edge e none).remove_edge e).1.indegrees j = degL nd.indegrees j ∧
      degL ((nd.add_edge e none).remove_edge e).1.outdegrees j = degL nd.outdegrees j ∧
      degL ((nd.add_edge e none).remove_edge e).1.degrees j = degL nd.degrees j ∧
      lookupL ((nd.add_edge e none).remove_edge e).1.related j = lookupL nd.related j := by
  have hwv : e.w ≠ e.v := Ne.symm hvw
  have hadd : nd.add_edge e none = (nd.addEdgeNode e none e.v).addEdgeNode e none e.w := by
    unfold NodeDict.add_edge edgeNodes
    rw [if_neg hvw]
    simp only [List.foldl_cons, List.foldl_nil]
  obtain ⟨tSt, tRel, tSucc, tPred, tOut, tInc, tAdjN, tAdjE, tInd, tOutd, tDeg⟩ :=
    addEdgeNode_tail_spec nd e e.v rA rfl hvw hrA
  have hrB2 : lookupL (nd.addEdgeNode e none e.v).related e.w = some rB := by
    rw [tRel, lookupL_insertL_ne _ _ _ _ hwv]
    exact hrB
  obtain ⟨hSt, hRel, hSucc, hPred, hOut, hInc, hAdjN, hAdjE, hInd, hOutd, hDeg⟩ :=
    addEdgeNode_head_spec (nd.addEdgeNode e none e.v) e e.w rB rfl hwv hrB2
  have hArel : lookupL ((nd.addEdgeNode e none e.v).addEdgeNode e none e.w).related e.v =
      some ((rA.addEdgeRel e).addNodeRel e.w) := by
    rw [hRel, lookupL_insertL_ne _ _ _ _ hvw, tRel, lookupL_insertL_self]
  have hA3' : containsL
      (rowL ((nd.addEdgeNode e none e.v).addEdgeNode e none e.w).successors e.v) e.w = true := by
    rw [hSucc, tSucc, rowL_rowInsert_self]
    exact containsL_insertL_self _ _ _
  have hA4' : containsL
      (rowL ((nd.addEdgeNode e none e.v).addEdgeNode e none e.w).adjacent_nodes e.v) e.w = true := by
    rw [hAdjN, rowL_rowInsert_ne _ _ _ _ _ hvw, tAdjN, rowL_rowInsert_self]
    exact containsL_insertL_self _ _ _
  have hA5' : containsL
      (rowL ((nd.addEdgeNode e none e.v).addEdgeNode e none e.w).outgoing e.v) e.uid = true := by
    rw [hOut, rowL_vivify, tOut, rowL_rowInsert_self]
    exact containsL_insertL_self _ _ _
  have hA6' : containsL
      (rowL ((nd.addEdgeNode e none e.v).addEdgeNode e none e.w).adjacent_edges e.v) e.uid = true := by
    rw [hAdjE, rowL_rowInsert_ne _ _ _ _ _ hvw, tAdjE, rowL_rowInsert_self]
    exact containsL_insertL_self _ _ _
  have RAeq := removeEdgeNode_tail_ok_spec
    ((nd.addEdgeNode e none e.v).addEdgeNode e none e.w) e e.v
    ((rA.addEdgeRel e).addNodeRel e.w) rfl hvw hArel
    (containsL_insertL_self _ _ _) (containsL_insertL_self _ _ _) hA3' hA4' hA5' hA6'
  have hBrel : lookupL
      (((nd.addEdgeNode e none e.v).addEdgeNode e none e.w).removeEdgeNode e e.v).1.related e.w =
      some ((rB.addEdgeRel e).addNodeRel e.v) := by
    rw [RAeq]
    dsimp only
    rw [lookupL_insertL_ne _ _ _ _ hwv, hRel, lookupL_insertL_self]
  have hB3' : containsL (rowL
      (((nd.addEdgeNode e none e.v).addEdgeNode e none e.w).removeEdgeNode e e.v).1.predecessors
      e.w) e.v = true := by
    rw [RAeq]
    dsimp only
    rw [hPred, rowL_rowInsert_self]
    exact containsL_insertL_self _ _ _
  have hB4' : containsL (rowL
      (((nd.addEdgeNode e none e.v).addEdgeNode e none e.w).removeEdgeNode e e.v).1.adjacent_nodes
      e.w) e.v = true := by
    rw [RAeq]
    dsimp only
    rw [rowL_insertL_ne _ _ _ _ hwv, hAdjN, rowL_rowInsert_self]
    exact containsL_insertL_self _ _ _
  have hB5' : containsL (rowL
      (((nd.addEdgeNode e none e.v).addEdgeNode e none e.w).removeEdgeNode e e.v).1.incoming
      e.w) e.uid = true := by
    rw [RAeq]
    dsimp only
    rw [rowL_vivify, hInc, rowL_rowInsert_self]
    exact containsL_insertL_self _ _ _
  have hB6' : containsL (rowL
      (((nd.addEdgeNode e none e.v).addEdgeNode e none e.w).removeEdgeNode e e.v).1.adjacent_edges
      e.w) e.uid = true := by
    rw [RAeq]
    dsimp only
    rw [rowL_insertL_ne _ _ _ _ hwv, hAdjE, rowL_rowInsert_self]
    exact containsL_insertL_self _ _ _
  have RBeq := removeEdgeNode_head_ok_spec
    (((nd.addEdgeNode e none e.v).addEdgeNode e none e.w).removeEdgeNode e e.v).1
    e e.w ((rB.addEdgeRel e).addNodeRel e.v) rfl hwv hBrel
    (containsL_insertL_self _ _ _) (containsL_insertL_self _ _ _) hB3' hB4' hB5' hB6'
  have hrun : ((nd.addEdgeNode e none e.v).addEdgeNode e none e.w).remove_edge e =
      ((((nd.addEdgeNode e none e.v).addEdgeNode e none e.w).removeEdgeNode e e.v).1.removeEdgeNode
        e e.w) := by
    unfold NodeDict.remove_edge edgeNodes
    rw [if_neg hvw]
    simp only [List.foldl_cons, List.foldl_nil, stepE_none]
    rw [stepE_of_none _ _ (by rw [RAeq])]
  rw [hadd, hrun, RBeq]
  refine ⟨rfl, ?_⟩
  intro j
  dsimp only
  rw [RAeq]
  dsimp only
  simp only [hSt, hRel, hSucc, hPred, hOut, hInc, hAdjN, hAdjE, hInd, hOutd, hDeg,
    tSt, tRel, tSucc, tPred, tOut, tInc, tAdjN, tAdjE, tInd, tOutd, tDeg]
  simp only [rowL_rowInsert_self, rowL_vivify, rowL_insertL_self, lookupL_insertL_self,
    rowL_rowInsert_ne _ _ _ _ _ hvw, rowL_rowInsert_ne _ _ _ _ _ hwv,
    rowL_insertL_ne _ _ _ _ hvw, rowL_insertL_ne _ _ _ _ hwv,
    lookupL_insertL_ne _ _ _ _ hvw, lookupL_insertL_ne _ _ _ _ hwv,
    eraseL_insertL_cancel _ _ _ hA1, eraseL_insertL_cancel _ _ _ hA2,
    eraseL_insertL_cancel _ _ _ hA3, eraseL_insertL_cancel _ _ _ hA4,
    eraseL_insertL_cancel _ _ _ hA5, eraseL_insertL_cancel _ _ _ hA6,
    eraseL_insertL_cancel _ _ _ hB1, eraseL_insertL_cancel _ _ _ hB2,
    eraseL_insertL_cancel _ _ _ hB3, eraseL_insertL_cancel _ _ _ hB4,
    eraseL_insertL_cancel _ _ _ hB5, eraseL_insertL_cancel _ _ _ hB6]
  by_cases hj1 : j = e.v
  · subst hj1
    simp only [rowL_insertL_self, rowL_insertL_ne _ _ _ _ hvw, rowL_rowInsert_self,
      rowL_rowInsert_ne _ _ _ _ _ hvw, rowL_vivify, degL_insertL_self,
      degL_insertL_ne _ _ _ _ hvw, lookupL_insertL_self, lookupL_insertL_ne _ _ _ _ hvw]
    refine ⟨trivial, trivial, trivial, trivial, trivial, trivial, ?_, ?_, ?_, ?_⟩
    · exact (hinv e.v).1.symm
    · exact (hinv e.v).2.1.symm
    · exact (hinv e.v).2.2.symm
    · simp only [RelatedObjects.addEdgeRel, RelatedObjects.addNodeRel,
        eraseL_insertL_cancel _ _ _ hA1, eraseL_insertL_cancel _ _ _ hA2, hrA]
  · by_cases hj2 : j = e.w
    · subst hj2
      simp only [rowL_insertL_self, rowL_insertL_ne _ _ _ _ hwv, rowL_rowInsert_self,
        rowL_rowInsert_ne _ _ _ _ _ hwv, rowL_vivify, degL_insertL_self,
        degL_insertL_ne _ _ _ _ hwv, lookupL_insertL_self, lookupL_insertL_ne _ _ _ _ hwv]
      refine ⟨trivial, trivial, trivial, trivial, trivial, trivial, ?_, ?_, ?_, ?_⟩
      · exact (hinv e.w).1.symm
      · exact (hinv e.w).2.1.symm
      · exact (hinv e.w).2.2.symm
      · simp only [RelatedObjects.addEdgeRel, RelatedObjects.addNodeRel,
          eraseL_insertL_cancel _ _ _ hB1, eraseL_insertL_cancel _ _ _ hB2, hrB]
    · simp only [rowL_insertL_ne _ _ _ _ hj1, rowL_insertL_ne _ _ _ _ hj2,
        rowL_rowInsert_ne _ _ _ _ _ hj1, rowL_rowInsert_ne _ _ _ _ _ hj2, rowL_vivify,
        degL_insertL_ne _ _ _ _ hj1, degL_insertL_ne _ _ _ _ hj2,
        lookupL_insertL_ne _ _ _ _ hj1, lookupL_insertL_ne _ _ _ _ hj2]
      refine ⟨?_, ?_, ?_, ?_, ?_, ?_, ?_, ?_, ?_, ?_⟩ <;> trivial

theorem delete_frame_rows (nd : NodeDict) (n j : String) (h : j ≠ n) :
    rowL (nd.delete n).1.successors j = rowL nd.successors j ∧
    rowL (nd.delete n).1.predecessors j = rowL nd.predecessors j ∧
    rowL (nd.delete n).1.adjacent_nodes j = rowL nd.adjacent_nodes j := by
  simp only [NodeDict.delete]
  split_ifs <;>
    exact ⟨by simp [rowL, lookupL_eraseL_ne _ _ _ h],
      by simp [rowL, lookupL_eraseL_ne _ _ _ h],
      by simp [rowL, lookupL_eraseL_ne _ _ _ h]⟩

theorem ETime.ble_refl (a : ETime) : ETime.ble a a = true := by
  cases a <;> simp [ETime.ble]

theorem ETime.ble_trans {a b c : ETime} (h1 : ETime.ble a b = true)
    (h2 : ETime.ble b c = true) : ETime.ble a c = true := by
  cases a <;> cases b <;> cases c <;> simp_all [ETime.ble] <;> omega

theorem ETime.ble_total (a b : ETime) :
    ETime.ble a b = true ∨ ETime.ble b a = true := by
  cases a <;> cases b <;> simp [ETime.ble] <;> omega

theorem ETime.ble_of_not_ble {a b : ETime} (h : ¬ ETime.ble a b = true) :
    ETime.ble b a = true := by
  rcases ETime.ble_total a b with h1 | h1
  · exact absurd h1 h
  · exact h1

theorem ETime.blt_iff {a b : ETime} :
    ETime.blt a b = true ↔ ¬ ETime.ble b a = true := by
  simp [ETime.blt]

theorem ETime.ble_of_blt {a b : ETime} (h : ETime.blt a b = true) :
    ETime.ble a b = true := by
  exact ETime.ble_of_not_ble (ETime.blt_iff.mp h)

theorem ETime.blt_irrefl (a : ETime) : ETime.blt a a = false := by
  simp [ETime.blt, ETime.ble_refl]

theorem ETime.not_blt_ninf (a : ETime) : ETime.blt a ETime.ninf = false := by
  cases a <;> simp [ETime.blt, ETime.ble]

theorem ETime.not_pinf_blt (a : ETime) : ETime.blt ETime.pinf a = false := by
  cases a <;> simp [ETime.blt, ETime.ble]

theorem mem_treeChop {t : IvTree} {p : ETime} {iv : Iv} (h : iv ∈ treeChop t p) :
    ∃ iv0 ∈ t, ETime.ble iv0.b iv.b = true ∧ ETime.ble iv.e iv0.e = true ∧
      ¬(ETime.blt iv.b p = true ∧ ETime.blt p iv.e = true) := by
  unfold treeChop at h
  rw [List.mem_flatMap] at h
  obtain ⟨iv0, h0, hmem⟩ := h
  by_cases hc : (ETime.blt iv0.b p && ETime.blt p iv0.e) = true
  · rw [if_pos hc] at hmem
    obtain ⟨hc1, hc2⟩ := Bool.and_eq_true_iff.mp hc
    simp only [List.mem_cons, List.mem_singleton, List.not_mem_nil, or_false] at hmem
    rcases hmem with hmem | hmem
    · subst hmem
      exact ⟨iv0, h0, ETime.ble_refl _, ETime.ble_of_blt hc2, fun hk =>
        by simpa [ETime.blt_irrefl] using hk.2⟩
    · subst hmem
      exact ⟨iv0, h0, ETime.ble_of_blt hc1, ETime.ble_refl _, fun hk =>
        by simpa [ETime.blt_irrefl] using hk.1⟩
  · rw [if_neg hc] at hmem
    simp only [List.mem_singleton] at hmem
    refine ⟨iv0, h0, ?_, ?_, ?_⟩
    · rw [hmem]
      exact ETime.ble_refl _
    · rw [hmem]
      exact ETime.ble_refl _
    · rw [hmem]
      intro hk
      exact hc (Bool.and_eq_true_iff.mpr hk)

theorem nonstraddle_sub {b' e' b1 e1 p : ETime} (hb : ETime.ble b1 b' = true)
    (he : ETime.ble e' e1 = true)
    (h : ¬(ETime.blt b1 p = true ∧ ETime.blt p e1 = true)) :
    ¬(ETime.blt b' p = true ∧ ETime.blt p e' = true) := by
  rintro ⟨h1, h2⟩
  apply h
  constructor
  · rw [ETime.blt_iff] at h1 ⊢
    intro hpb1
    exact h1 (ETime.ble_trans hpb1 hb)
  · rw [ETime.blt_iff] at h2 ⊢
    intro he1p
    exact h2 (ETime.ble_trans he he1p)

theorem ETime.emin_le_left (a b : ETime) : ETime.ble (ETime.emin a b) a = true := by
  unfold ETime.emin
  by_cases h : ETime.ble a b = true
  · simp [h, ETime.ble_refl]
  · simp [h, ETime.ble_of_not_ble h]

theorem ETime.emin_le_right (a b : ETime) : ETime.ble (ETime.emin a b) b = true := by
  unfold ETime.emin
  by_cases h : ETime.ble a b = true
  · simp [h]
  · simp [h, ETime.ble_refl]

theorem ETime.emin_eq_or (a b : ETime) : ETime.emin a b = a ∨ ETime.emin a b = b := by
  unfold ETime.emin
  by_cases h : ETime.ble a b = true <;> simp [h]

theorem ETime.le_emax_left (a b : ETime) : ETime.ble a (ETime.emax a b) = true := by
  unfold ETime.emax
  by_cases h : ETime.ble b a = true
  · simp [h, ETime.ble_refl]
  · simp [h, ETime.ble_of_not_ble h]

theorem ETime.le_emax_right (a b : ETime) : ETime.ble b (ETime.emax a b) = true := by
  unfold ETime.emax
  by_cases h : ETime.ble b a = true
  · simp [h]
  · simp [h, ETime.ble_refl]

theorem ETime.emax_eq_or (a b : ETime) : ETime.emax a b = a ∨ ETime.emax a b = b := by
  unfold ETime.emax
  by_cases h : ETime.ble b a = true <;> simp [h]

theorem foldl_emin_spec (l : List Iv) (acc : ETime) :
    ETime.ble (l.foldl (fun a x => ETime.emin a x.b) acc) acc = true ∧
    (∀ x ∈ l, ETime.ble (l.foldl (fun a x => ETime.emin a x.b) acc) x.b = true) ∧
    ((l.foldl (fun a x => ETime.emin a x.b) acc) = acc ∨
      ∃ x ∈ l, (l.foldl (fun a x => ETime.emin a x.b) acc) = x.b) := by
  induction l generalizing acc with
  | nil => exact ⟨ETime.ble_refl _, by simp, Or.inl rfl⟩
  | cons y ys ih =>
    obtain ⟨ih1, ih2, ih3⟩ := ih (ETime.emin acc y.b)
    simp only [List.foldl_cons]
    refine ⟨ETime.ble_trans ih1 (ETime.emin_le_left _ _), ?_, ?_⟩
    · intro x hx
      rcases List.mem_cons.mp hx with hx | hx
      · subst hx
        exact ETime.ble_trans ih1 (ETime.emin_le_right _ _)
      · exact ih2 x hx
    · rcases ih3 with h | ⟨x, hx, hxe⟩
      · rcases ETime.emin_eq_or acc y.b with h2 | h2
        · exact Or.inl (h.trans h2)
        · exact Or.inr ⟨y, List.mem_cons_self _ _, h.trans h2⟩
      · exact Or.inr ⟨x, List.mem_cons_of_mem _ hx, hxe⟩

theorem foldl_emax_spec (l : List Iv) (acc : ETime) :
    ETime.ble acc (l.foldl (fun a x => ETime.emax a x.e) acc) = true ∧
    (∀ x ∈ l, ETime.ble x.e (l.foldl (fun a x => ETime.emax a x.e) acc) = true) ∧
    ((l.foldl (fun a x => ETime.emax a x.e) acc) = acc ∨
      ∃ x ∈ l, (l.foldl (fun a x => ETime.emax a x.e) acc) = x.e) := by
  induction l generalizing acc with
  | nil => exact ⟨ETime.ble_refl _, by simp, Or.inl rfl⟩
  | cons y ys ih =>
    obtain ⟨ih1, ih2, ih3⟩ := ih (ETime.emax acc y.e)
    simp only [List.foldl_cons]
    refine ⟨ETime.ble_trans (ETime.le_emax_left _ _) ih1, ?_, ?_⟩
    · intro x hx
      rcases List.mem_cons.mp hx with hx | hx
      · subst hx
        exact ETime.ble_trans (ETime.le_emax_right _ _) ih1
      · exact ih2 x hx
    · rcases ih3 with h | ⟨x, hx, hxe⟩
      · rcases ETime.emax_eq_or acc y.e with h2 | h2
        · exact Or.inl (h.trans h2)
        · exact Or.inr ⟨y, List.mem_cons_self _ _, h.trans h2⟩
      · exact Or.inr ⟨x, List.mem_cons_of_mem _ hx, hxe⟩

theorem treeBegin_le {t : IvTree} {iv : Iv} (h : iv ∈ t) :
    ETime.ble (treeBegin t) iv.b = true := by
  cases t with
  | nil => cases h
  | cons x rest =>
    obtain ⟨h1, h2, -⟩ := foldl_emin_spec rest x.b
    rcases List.mem_cons.mp h with h | h
    · subst h
      exact h1
    · exact h2 iv h

theorem le_treeEnd {t : IvTree} {iv : Iv} (h : iv ∈ t) :
    ETime.ble iv.e (treeEnd t) = true := by
  cases t with
  | nil => cases h
  | cons x rest =>
    obtain ⟨h1, h2, -⟩ := foldl_emax_spec rest x.e
    rcases List.mem_cons.mp h with h | h
    · subst h
      exact h1
    · exact h2 iv h

theorem treeBegin_mem {t : IvTree} (h : t ≠ []) :
    ∃ iv ∈ t, treeBegin t = iv.b := by
  cases t with
  | nil => exact absurd rfl h
  | cons x rest =>
    obtain ⟨-, -, h3⟩ := foldl_emin_spec rest x.b
    rcases h3 with h3 | ⟨y, hy, hye⟩
    · exact ⟨x, List.mem_cons_self _ _, h3⟩
    · exact ⟨y, List.mem_cons_of_mem _ hy, hye⟩

theorem treeEnd_mem {t : IvTree} (h : t ≠ []) :
    ∃ iv ∈ t, treeEnd t = iv.e := by
  cases t with
  | nil => exact absurd rfl h
  | cons x rest =>
    obtain ⟨-, -, h3⟩ := foldl_emax_spec rest x.e
    rcases h3 with h3 | ⟨y, hy, hye⟩
    · exact ⟨x, List.mem_cons_self _ _, h3⟩
    · exact ⟨y, List.mem_cons_of_mem _ hy, hye⟩

/-- Every interval of a `slice(begin, end)` result is contained in the
half-open window `[begin, end)`. -/
theorem slice_subset_window (c : TemporalEdgeCollection) (lo hi : ETime) :
    ∀ iv ∈ (c.slice lo hi).intervals,
      ETime.ble lo iv.b = true ∧ ETime.ble iv.e hi = true := by
  intro iv h
  unfold TemporalEdgeCollection.slice newFromIntervals at h
  simp only [removeEnvelop, List.mem_filter, Bool.not_eq_true',
    Bool.and_eq_false_iff] at h
  obtain ⟨⟨hmem2, hf1⟩, hf2⟩ := h
  obtain ⟨iv1, h1mem, hb1, he1, hnsHi⟩ := mem_treeChop hmem2
  obtain ⟨iv0, h0mem, hb0, he0, hnsLo1⟩ := mem_treeChop h1mem
  have hnsLo := nonstraddle_sub hb1 he1 hnsLo1
  have hTb : ETime.ble (treeBegin c.intervals) iv.b = true :=
    ETime.ble_trans (treeBegin_le h0mem) (ETime.ble_trans hb0 hb1)
  have hTe : ETime.ble iv.e (treeEnd c.intervals) = true :=
    ETime.ble_trans (ETime.ble_trans he1 he0) (le_treeEnd h0mem)
  have hlt1 : ETime.blt lo iv.e = true := by
    rcases hf1 with h | h
    · rw [hTb] at h
      cases h
    · rw [ETime.blt_iff]
      intro hle
      rw [hle] at h
      cases h
  have hlt2 : ETime.blt iv.b hi = true := by
    rcases hf2 with h | h
    · rw [ETime.blt_iff]
      intro hle
      rw [hle] at h
      cases h
    · rw [hTe] at h
      cases h
  constructor
  · by_cases hb : ETime.blt iv.b lo = true
    · exact absurd ⟨hb, hlt1⟩ hnsLo
    · rw [ETime.blt_iff] at hb
      exact Decidable.of_not_not hb
  · by_cases he : ETime.blt hi iv.e = true
    · exact absurd ⟨hlt2, he⟩ hnsHi
    · rw [ETime.blt_iff] at he
      exact Decidable.of_not_not he

theorem mem_insOrd (le : Iv → Iv → Bool) (a x : Iv) (l : List Iv) :
    x ∈ insOrd le a l ↔ x = a ∨ x ∈ l := by
  induction l with
  | nil => simp [insOrd]
  | cons y ys ih =>
    unfold insOrd
    by_cases h : le a y = true
    · simp [h]
    · rw [if_neg h, List.mem_cons, ih, List.mem_cons]
      tauto

theorem mem_sortOrd (le : Iv → Iv → Bool) (x : Iv) (l : List Iv) :
    x ∈ sortOrd le l ↔ x ∈ l := by
  induction l with
  | nil => simp [sortOrd]
  | cons y ys ih =>
    unfold sortOrd
    rw [mem_insOrd, ih, List.mem_cons]

theorem sortOrd_ne_nil (le : Iv → Iv → Bool) (l : List Iv) (h : l ≠ []) :
    sortOrd le l ≠ [] := by
  cases l with
  | nil => exact absurd rfl h
  | cons y ys =>
    unfold sortOrd
    cases hs : sortOrd le ys with
    | nil => simp [insOrd]
    | cons z zs =>
      unfold insOrd
      by_cases hle : le y z = true <;> simp [hle]

theorem pairwise_insOrd (le : Iv → Iv → Bool)
    (htot : ∀ x y, le x y = true ∨ le y x = true)
    (htrans : ∀ {x y z}, le x y = true → le y z = true → le x z = true)
    (a : Iv) (l : List Iv) (h : l.Pairwise (fun p q => le p q = true)) :
    (insOrd le a l).Pairwise (fun p q => le p q = true) := by
  induction l with
  | nil => simp [insOrd]
  | cons y ys ih =>
    rw [List.pairwise_cons] at h
    obtain ⟨hy, hys⟩ := h
    unfold insOrd
    by_cases hle : le a y = true
    · rw [if_pos hle]
      rw [List.pairwise_cons]
      refine ⟨?_, List.pairwise_cons.mpr ⟨hy, hys⟩⟩
      intro z hz
      rcases List.mem_cons.mp hz with hz | hz
      · subst hz
        exact hle
      · exact htrans hle (hy z hz)
    · rw [if_neg hle]
      rw [List.pairwise_cons]
      refine ⟨?_, ih hys⟩
      intro z hz
      rcases (mem_insOrd le a z ys).mp hz with hz | hz
      · subst hz
        rcases htot y z with h | h
        · exact h
        · exact absurd h hle
      · exact hy z hz

theorem pairwise_sortOrd (le : Iv → Iv → Bool)
    (htot : ∀ x y, le x y = true ∨ le y x = true)
    (htrans : ∀ {x y z}, le x y = true → le y z = true → le x z = true)
    (l : List Iv) : (sortOrd le l).Pairwise (fun p q => le p q = true) := by
  induction l with
  | nil => simp [sortOrd]
  | cons y ys ih => exact pairwise_insOrd le htot htrans y (sortOrd le ys) ih

theorem find?_min_of_pairwise (le : Iv → Iv → Bool) (p : Iv → Bool) (l : List Iv)
    (hrefl : ∀ x, le x x = true)
    (hp : l.Pairwise (fun a b => le a b = true)) (x : Iv)
    (hfind : l.find? p = some x) :
    x ∈ l ∧ p x = true ∧ ∀ y ∈ l, p y = true → le x y = true := by
  induction l with
  | nil => cases hfind
  | cons h t ih =>
    rw [List.pairwise_cons] at hp
    obtain ⟨hh, ht⟩ := hp
    rw [List.find?_cons] at hfind
    cases hph : p h with
    | true =>
      rw [hph] at hfind
      dsimp only at hfind
      obtain rfl := Option.some.inj hfind
      refine ⟨List.mem_cons_self _ _, hph, ?_⟩
      intro y hy hpy
      rcases List.mem_cons.mp hy with hy | hy
      · subst hy
        exact hrefl _
      · exact hh y hy
    | false =>
      rw [hph] at hfind
      dsimp only at hfind
      obtain ⟨hmem, hpx, hmin⟩ := ih ht hfind
      refine ⟨List.mem_cons_of_mem _ hmem, hpx, ?_⟩
      intro y hy hpy
      rcases List.mem_cons.mp hy with hy | hy
      · subst hy
        rw [hpy] at hph
        cases hph
      · exact hmin y hy hpy

theorem find?_none_of_all (p : Iv → Bool) (l : List Iv)
    (hfind : l.find? p = none) : ∀ y ∈ l, p y = false := by
  induction l with
  | nil => intro y hy; cases hy
  | cons h t ih =>
    rw [List.find?_cons] at hfind
    cases hph : p h with
    | true =>
      rw [hph] at hfind
      dsimp only at hfind
      cases hfind
    | false =>
      rw [hph] at hfind
      dsimp only at hfind
      intro y hy
      rcases List.mem_cons.mp hy with hy | hy
      · subst hy
        exact hph
      · exact ih hfind y hy

theorem mem_finBounds {t : IvTree} {x : ETime} :
    x ∈ finBounds t ↔ ETime.isFin x = true ∧ ∃ iv ∈ t, x = iv.b ∨ x = iv.e := by
  unfold finBounds
  rw [List.mem_filter, List.mem_flatMap]
  constructor
  · rintro ⟨⟨iv, hiv, hm⟩, hfin⟩
    refine ⟨hfin, iv, hiv, ?_⟩
    simpa using hm
  · rintro ⟨hfin, iv, hiv, hm⟩
    exact ⟨⟨iv, hiv, by simpa using hm⟩, hfin⟩

theorem ETime.isFin_iff {a : ETime} :
    ETime.isFin a = true ↔ a ≠ ETime.ninf ∧ a ≠ ETime.pinf := by
  cases a <;> simp [ETime.isFin]

theorem ETime.blt_ninf_of_ne {a : ETime} (h : a ≠ ETime.ninf) :
    ETime.blt ETime.ninf a = true := by
  cases a <;> simp_all [ETime.blt, ETime.ble]

theorem ETime.blt_pinf_of_ne {a : ETime} (h : a ≠ ETime.pinf) :
    ETime.blt a ETime.pinf = true := by
  cases a <;> simp_all [ETime.blt, ETime.ble]

theorem ETime.ne_pinf_of_blt {a b : ETime} (h : ETime.blt a b = true) :
    a ≠ ETime.pinf := by
  intro hh
  rw [hh, ETime.not_pinf_blt] at h
  cases h

theorem ETime.ne_ninf_of_blt {a b : ETime} (h : ETime.blt a b = true) :
    b ≠ ETime.ninf := by
  intro hh
  rw [hh, ETime.not_blt_ninf] at h
  cases h

theorem ETime.eq_ninf_of_not_blt {a : ETime} (h : ETime.blt ETime.ninf a = false) :
    a = ETime.ninf := by
  cases a <;> simp_all [ETime.blt, ETime.ble]

theorem ETime.eq_pinf_of_not_blt {a : ETime} (h : ETime.blt a ETime.pinf = false) :
    a = ETime.pinf := by
  cases a <;> simp_all [ETime.blt, ETime.ble]

theorem ETime.ble_pinf_left {a : ETime} (h : ETime.ble ETime.pinf a = true) :
    a = ETime.pinf := by
  cases a <;> simp_all [ETime.ble]

theorem ETime.ble_ninf_right {a : ETime} (h : ETime.ble a ETime.ninf = true) :
    a = ETime.ninf := by
  cases a <;> simp_all [ETime.ble]

theorem ETime.ble_pinf_any (a : ETime) : ETime.ble a ETime.pinf = true := by
  cases a <;> simp [ETime.ble]

theorem ETime.ninf_ble_any (a : ETime) : ETime.ble ETime.ninf a = true := by
  cases a <;> rfl

theorem ETime.emin_self (a : ETime) : ETime.emin a a = a := by
  simp [ETime.emin, ETime.ble_refl]

theorem ETime.emin_pinf (a : ETime) : ETime.emin a ETime.pinf = a := by
  simp [ETime.emin, ETime.ble_pinf_any]

theorem ETime.emax_self (a : ETime) : ETime.emax a a = a := by
  simp [ETime.emax, ETime.ble_refl]

theorem ETime.emax_ninf (a : ETime) : ETime.emax ETime.ninf a = a := by
  unfold ETime.emax
  by_cases h : ETime.ble a ETime.ninf = true
  · rw [if_pos h, ETime.ble_ninf_right h]
  · rw [if_neg h]

theorem finBounds_nil : finBounds [] = [] := rfl

theorem lastB_mem (l : List Iv) (h : l ≠ []) : ∃ iv ∈ l, lastB l = iv.b := by
  induction l with
  | nil => exact absurd rfl h
  | cons x xs ih =>
    cases xs with
    | nil => exact ⟨x, List.mem_cons_self _ _, rfl⟩
    | cons y ys =>
      obtain ⟨iv, hm, he⟩ := ih (List.cons_ne_nil _ _)
      exact ⟨iv, List.mem_cons_of_mem _ hm, he⟩

theorem lastB_max (l : List Iv) (hp : l.Pairwise (fun a b => bleB a b = true)) :
    ∀ y ∈ l, ETime.ble y.b (lastB l) = true := by
  induction l with
  | nil => intro y hy; cases hy
  | cons x xs ih =>
    rw [List.pairwise_cons] at hp
    obtain ⟨hx, hxs⟩ := hp
    intro y hy
    cases xs with
    | nil =>
      rcases List.mem_cons.mp hy with hy | hy
      · subst hy
        exact ETime.ble_refl _
      · cases hy
    | cons z zs =>
      rcases List.mem_cons.mp hy with hy | hy
      · subst hy
        obtain ⟨iv, hm, he⟩ := lastB_mem (z :: zs) (List.cons_ne_nil _ _)
        show ETime.ble y.b (lastB (z :: zs)) = true
        rw [he]
        exact hx iv hm
      · exact ih hxs y hy

theorem bleB_refl (x : Iv) : bleB x x = true := ETime.ble_refl x.b

theorem bleB_total (x y : Iv) : bleB x y = true ∨ bleB y x = true :=
  ETime.ble_total x.b y.b

theorem bleB_trans {x y z : Iv} (h1 : bleB x y = true) (h2 : bleB y z = true) :
    bleB x z = true := ETime.ble_trans h1 h2

theorem bleE_total (x y : Iv) : bleE x y = true ∨ bleE y x = true :=
  ETime.ble_total x.e y.e

theorem bleE_trans {x y z : Iv} (h1 : bleE x y = true) (h2 : bleE y z = true) :
    bleE x z = true := ETime.ble_trans h1 h2

theorem bleEdesc_refl (x : Iv) : bleEdesc x x = true := ETime.ble_refl x.e

theorem bleEdesc_total (x y : Iv) : bleEdesc x y = true ∨ bleEdesc y x = true :=
  (ETime.ble_total y.e x.e).symm.imp id id |>.symm

theorem bleEdesc_trans {x y z : Iv} (h1 : bleEdesc x y = true)
    (h2 : bleEdesc y z = true) : bleEdesc x z = true := ETime.ble_trans h2 h1

/-- `sorted(tree, key=end)[0][1]` reads the least interval end. -/
theorem minEnd_spec (t : IvTree) (h : t ≠ []) :
    (∃ iv ∈ t, headE (sortOrd bleE t) = iv.e) ∧
    ∀ iv ∈ t, ETime.ble (headE (sortOrd bleE t)) iv.e = true := by
  cases hs : sortOrd bleE t with
  | nil => exact absurd hs (sortOrd_ne_nil _ _ h)
  | cons x rest =>
    have hpw := pairwise_sortOrd bleE bleE_total bleE_trans t
    rw [hs, List.pairwise_cons] at hpw
    constructor
    · refine ⟨x, ?_, rfl⟩
      have hx : x ∈ sortOrd bleE t := by
        rw [hs]
        exact List.mem_cons_self _ _
      exact (mem_sortOrd _ _ _).mp hx
    · intro iv hiv
      have hivs : iv ∈ x :: rest := by
        rw [← hs, mem_sortOrd]
        exact hiv
      rcases List.mem_cons.mp hivs with hh | hh
      · subst hh
        exact ETime.ble_refl _
      · exact hpw.1 iv hh

theorem isFin_of_ne {a : ETime} (h1 : a ≠ ETime.ninf) (h2 : a ≠ ETime.pinf) :
    ETime.isFin a = true := ETime.isFin_iff.mpr ⟨h1, h2⟩

/-- With `finite=True` and at least one finite bound stored, `begin` returns
the least finite bound among the stored intervals. -/
theorem beginFin_is_min_finite_bound (c : TemporalEdgeCollection)
    (hwf : ∀ iv ∈ c.intervals, ETime.blt iv.b iv.e = true)
    (hfb : finBounds c.intervals ≠ []) :
    ∃ m, c.begin true = some m ∧ m ∈ finBounds c.intervals ∧
      ∀ x ∈ finBounds c.intervals, ETime.ble m x = true := by
  have htne : c.intervals ≠ [] := by
    intro hnil
    rw [hnil, finBounds_nil] at hfb
    exact hfb rfl
  obtain ⟨⟨ivE, hivE, hE⟩, E2⟩ := minEnd_spec c.intervals htne
  have he1ninf : headE (sortOrd bleE c.intervals) ≠ ETime.ninf := by
    rw [hE]
    exact ETime.ne_ninf_of_blt (hwf ivE hivE)
  have hbeq : c.begin true = some (ETime.emin
      (if (match (sortOrd bleB c.intervals).find?
              (fun iv => ETime.blt ETime.ninf iv.b) with
            | some iv => iv.b
            | none => treeBegin c.intervals) = ETime.ninf ∧
            ETime.blt (headE (sortOrd bleE c.intervals)) ETime.pinf = true
        then headE (sortOrd bleE c.intervals)
        else (match (sortOrd bleB c.intervals).find?
              (fun iv => ETime.blt ETime.ninf iv.b) with
            | some iv => iv.b
            | none => treeBegin c.intervals))
      (headE (sortOrd bleE c.intervals))) := by
    unfold TemporalEdgeCollection.begin
    cases hT : c.intervals with
    | nil => exact absurd hT htne
    | cons x xs => simp
  rw [hbeq]
  cases hfind : (sortOrd bleB c.intervals).find?
      (fun iv => ETime.blt ETime.ninf iv.b) with
  | some ivf =>
    obtain ⟨hfmem', hfp, hfmin'⟩ := find?_min_of_pairwise bleB _ _ bleB_refl
      (pairwise_sortOrd bleB bleB_total bleB_trans c.intervals) ivf hfind
    have hfmem : ivf ∈ c.intervals := (mem_sortOrd _ _ _).mp hfmem'
    have hfmin : ∀ y ∈ c.intervals, ETime.blt ETime.ninf y.b = true →
        ETime.ble ivf.b y.b = true :=
      fun y hy hp => hfmin' y ((mem_sortOrd _ _ _).mpr hy) hp
    have hb1ninf : ivf.b ≠ ETime.ninf := by
      intro hh
      rw [hh, ETime.blt_irrefl] at hfp
      cases hfp
    have hb1pinf : ivf.b ≠ ETime.pinf := ETime.ne_pinf_of_blt (hwf ivf hfmem)
    refine ⟨_, rfl, ?_, ?_⟩
    · dsimp only
      rw [if_neg (fun hk => hb1ninf hk.1)]
      by_cases he1 : headE (sortOrd bleE c.intervals) = ETime.pinf
      · rw [he1, ETime.emin_pinf]
        exact mem_finBounds.mpr ⟨isFin_of_ne hb1ninf hb1pinf, ivf, hfmem, Or.inl rfl⟩
      · rcases ETime.emin_eq_or ivf.b (headE (sortOrd bleE c.intervals)) with hm | hm <;>
          rw [hm]
        · exact mem_finBounds.mpr ⟨isFin_of_ne hb1ninf hb1pinf, ivf, hfmem, Or.inl rfl⟩
        · exact mem_finBounds.mpr ⟨isFin_of_ne he1ninf he1, ivE, hivE, Or.inr hE⟩
    · intro x hx
      obtain ⟨hxfin, iv, hiv, hxeq⟩ := mem_finBounds.mp hx
      dsimp only
      rw [if_neg (fun hk => hb1ninf hk.1)]
      rcases hxeq with hxb | hxe
      · subst hxb
        have hb : ETime.blt ETime.ninf iv.b = true :=
          ETime.blt_ninf_of_ne (ETime.isFin_iff.mp hxfin).1
        exact ETime.ble_trans (ETime.emin_le_left _ _) (hfmin iv hiv hb)
      · subst hxe
        exact ETime.ble_trans (ETime.emin_le_right _ _) (E2 iv hiv)
  | none =>
    have hall : ∀ y ∈ c.intervals, y.b = ETime.ninf := by
      intro y hy
      exact ETime.eq_ninf_of_not_blt
        (find?_none_of_all _ _ hfind y ((mem_sortOrd _ _ _).mpr hy))
    have hb0 : treeBegin c.intervals = ETime.ninf := by
      obtain ⟨iv0, hiv0, he0⟩ := treeBegin_mem htne
      rw [he0, hall iv0 hiv0]
    obtain ⟨x0, hx0⟩ := List.exists_mem_of_ne_nil _ hfb
    obtain ⟨hx0fin, iv0, hiv0, hx0eq⟩ := mem_finBounds.mp hx0
    have hx0end : x0 = iv0.e := by
      rcases hx0eq with hh | hh
      · rw [hall iv0 hiv0] at hh
        rw [hh] at hx0fin
        cases hx0fin
      · exact hh
    have he1pinf : headE (sortOrd bleE c.intervals) ≠ ETime.pinf := by
      intro hp
      have h2 := E2 iv0 hiv0
      rw [hp] at h2
      have h3 := ETime.ble_pinf_left h2
      rw [← hx0end] at h3
      rw [h3] at hx0fin
      cases hx0fin
    dsimp only
    rw [hb0, if_pos ⟨rfl, ETime.blt_pinf_of_ne he1pinf⟩, ETime.emin_self]
    refine ⟨_, rfl, ?_, ?_⟩
    · exact mem_finBounds.mpr ⟨isFin_of_ne he1ninf he1pinf, ivE, hivE, Or.inr hE⟩
    · intro x hx
      obtain ⟨hxfin, iv, hiv, hxeq⟩ := mem_finBounds.mp hx
      rcases hxeq with hxb | hxe
      · rw [hall iv hiv] at hxb
        rw [hxb] at hxfin
        cases hxfin
      · subst hxe
        exact E2 iv hiv

/-- With `finite=True` and at least one finite bound stored, `end` returns
the greatest finite bound among the stored intervals. -/
theorem endFin_is_max_finite_bound (c : TemporalEdgeCollection)
    (hwf : ∀ iv ∈ c.intervals, ETime.blt iv.b iv.e = true)
    (hfb : finBounds c.intervals ≠ []) :
    ∃ m, c.endT true = some m ∧ m ∈ finBounds c.intervals ∧
      ∀ x ∈ finBounds c.intervals, ETime.ble x m = true := by
  have htne : c.intervals ≠ [] := by
    intro hnil
    rw [hnil, finBounds_nil] at hfb
    exact hfb rfl
  have hsne : sortOrd bleB c.intervals ≠ [] := sortOrd_ne_nil _ _ htne
  obtain ⟨ivL, hivL', hLeq⟩ := lastB_mem (sortOrd bleB c.intervals) hsne
  have hivL : ivL ∈ c.intervals := (mem_sortOrd _ _ _).mp hivL'
  have hLmax : ∀ y ∈ c.intervals,
      ETime.ble y.b (lastB (sortOrd bleB c.intervals)) = true := by
    intro y hy
    exact lastB_max _ (pairwise_sortOrd bleB bleB_total bleB_trans c.intervals) y
      ((mem_sortOrd _ _ _).mpr hy)
  have hLpinf : lastB (sortOrd bleB c.intervals) ≠ ETime.pinf := by
    rw [hLeq]
    exact ETime.ne_pinf_of_blt (hwf ivL hivL)
  have heeq : c.endT true = some (ETime.emax (lastB (sortOrd bleB c.intervals))
      (if ETime.blt ETime.ninf (lastB (sortOrd bleB c.intervals)) = true ∧
          (match (sortOrd bleEdesc c.intervals).find?
              (fun iv => ETime.blt iv.e ETime.pinf) with
            | some iv => iv.e
            | none => treeEnd c.intervals) = ETime.pinf
        then lastB (sortOrd bleB c.intervals)
        else (match (sortOrd bleEdesc c.intervals).find?
              (fun iv => ETime.blt iv.e ETime.pinf) with
            | some iv => iv.e
            | none => treeEnd c.intervals))) := by
    unfold TemporalEdgeCollection.endT
    cases hT : c.intervals with
    | nil => exact absurd hT htne
    | cons x xs => simp
  rw [heeq]
  cases hfind : (sortOrd bleEdesc c.intervals).find?
      (fun iv => ETime.blt iv.e ETime.pinf) with
  | some ivf =>
    obtain ⟨hfmem', hfp, hfmin'⟩ := find?_min_of_pairwise bleEdesc _ _ bleEdesc_refl
      (pairwise_sortOrd bleEdesc bleEdesc_total bleEdesc_trans c.intervals) ivf hfind
    have hfmem : ivf ∈ c.intervals := (mem_sortOrd _ _ _).mp hfmem'
    have hfmax : ∀ y ∈ c.intervals, ETime.blt y.e ETime.pinf = true →
        ETime.ble y.e ivf.e = true :=
      fun y hy hp => hfmin' y ((mem_sortOrd _ _ _).mpr hy) hp
    have he1pinf : ivf.e ≠ ETime.pinf := ETime.ne_pinf_of_blt hfp
    have he1ninf : ivf.e ≠ ETime.ninf := ETime.ne_ninf_of_blt (hwf ivf hfmem)
    refine ⟨_, rfl, ?_, ?_⟩
    · dsimp only
      rw [if_neg (fun hk => he1pinf hk.2)]
      by_cases hb1 : lastB (sortOrd bleB c.intervals) = ETime.ninf
      · rw [hb1, ETime.emax_ninf]
        exact mem_finBounds.mpr ⟨isFin_of_ne he1ninf he1pinf, ivf, hfmem, Or.inr rfl⟩
      · rcases ETime.emax_eq_or (lastB (sortOrd bleB c.intervals)) ivf.e with hm | hm <;>
          rw [hm]
        · exact mem_finBounds.mpr ⟨isFin_of_ne hb1 hLpinf, ivL, hivL, Or.inl hLeq⟩
        · exact mem_finBounds.mpr ⟨isFin_of_ne he1ninf he1pinf, ivf, hfmem, Or.inr rfl⟩
    · intro x hx
      obtain ⟨hxfin, iv, hiv, hxeq⟩ := mem_finBounds.mp hx
      dsimp only
      rw [if_neg (fun hk => he1pinf hk.2)]
      rcases hxeq with hxb | hxe
      · subst hxb
        exact ETime.ble_trans (hLmax iv hiv) (ETime.le_emax_left _ _)
      · subst hxe
        have hp : ETime.blt iv.e ETime.pinf = true :=
          ETime.blt_pinf_of_ne (ETime.isFin_iff.mp hxfin).2
        exact ETime.ble_trans (hfmax iv hiv hp) (ETime.le_emax_right _ _)
  | none =>
    have hall : ∀ y ∈ c.intervals, y.e = ETime.pinf := by
      intro y hy
      exact ETime.eq_pinf_of_not_blt
        (find?_none_of_all _ _ hfind y ((mem_sortOrd _ _ _).mpr hy))
    have he0 : treeEnd c.intervals = ETime.pinf := by
      obtain ⟨iv0, hiv0, h0⟩ := treeEnd_mem htne
      rw [h0, hall iv0 hiv0]
    obtain ⟨x0, hx0⟩ := List.exists_mem_of_ne_nil _ hfb
    obtain ⟨hx0fin, iv0, hiv0, hx0eq⟩ := mem_finBounds.mp hx0
    have hx0beg : x0 = iv0.b := by
      rcases hx0eq with hh | hh
      · exact hh
      · rw [hall iv0 hiv0] at hh
        rw [hh] at hx0fin
        cases hx0fin
    have hb1ninf : lastB (sortOrd bleB c.intervals) ≠ ETime.ninf := by
      intro hn
      have h2 := hLmax iv0 hiv0
      rw [hn] at h2
      have h3 := ETime.ble_ninf_right h2
      rw [← hx0beg] at h3
      rw [h3] at hx0fin
      cases hx0fin
    dsimp only
    rw [he0, if_pos ⟨ETime.blt_ninf_of_ne hb1ninf, rfl⟩, ETime.emax_self]
    refine ⟨_, rfl, ?_, ?_⟩
    · exact mem_finBounds.mpr ⟨isFin_of_ne hb1ninf hLpinf, ivL, hivL, Or.inl hLeq⟩
    · intro x hx
      obtain ⟨hxfin, iv, hiv, hxeq⟩ := mem_finBounds.mp hx
      rcases hxeq with hxb | hxe
      · subst hxb
        exact hLmax iv hiv
      · rw [hall iv hiv] at hxe
        rw [hxe] at hxfin
        cases hxfin

/-! ## The claims -/

/-- **C1** (amended): along every sequence of `add_edge` calls and of
`remove_edge` calls that complete without raising, the cached indegree,
outdegree and degree of every node equal the sizes of its incoming, outgoing
and adjacent edge sets.  (A `remove_edge` call that raises mid-way — e.g. on
a self-loop — can leave a node's caches permanently out of sync, see the
counterexample.) -/
theorem nodeDict_degree_cache_invariant (nd : NodeDict) (h : NodeDict.Reach nd) :
    DegInv nd :=
  reach_degInv nd h

theorem nodeDict_degree_cache_invariant_witness :
    DegInv (NodeDict.init.add_edge ⟨"e1", "A", "B", true⟩ none) :=
  nodeDict_degree_cache_invariant _
    (NodeDict.Reach.add NodeDict.init ⟨"e1", "A", "B", true⟩ none NodeDict.Reach.init)

/-- **C1** counterexample: in a call sequence containing a failed
`remove_edge` on a self-loop, the invariant is broken for a node present in
the index even after a later completed `add_edge` call. -/
theorem nodeDict_degree_cache_broken_after_failed_remove :
    ((NodeDict.init.add_edge ⟨"e1", "A", "A", true⟩ none).remove_edge
        ⟨"e1", "A", "A", true⟩).2 = some "KeyError" ∧
    containsL ((((NodeDict.init.add_edge ⟨"e1", "A", "A", true⟩ none).remove_edge
        ⟨"e1", "A", "A", true⟩).1.add_edge ⟨"e2", "B", "C", true⟩ none).store) "A" = true ∧
    ¬ (degL (((NodeDict.init.add_edge ⟨"e1", "A", "A", true⟩ none).remove_edge
          ⟨"e1", "A", "A", true⟩).1.add_edge ⟨"e2", "B", "C", true⟩ none).degrees "A" =
        (rowL (((NodeDict.init.add_edge ⟨"e1", "A", "A", true⟩ none).remove_edge
          ⟨"e1", "A", "A", true⟩).1.add_edge ⟨"e2", "B", "C", true⟩ none).adjacent_edges
          "A").length) := by
  decide

theorem add_remove_round_trip_witness :
    (((((NodeDict.init.add_edge ⟨"e0", "A", "C", true⟩ none).add_edge
        ⟨"e1", "B", "C", true⟩ none).add_edge ⟨"e9", "A", "B", true⟩ none).remove_edge
        ⟨"e9", "A", "B", true⟩).2 = none) ∧
    rowL (((((NodeDict.init.add_edge ⟨"e0", "A", "C", true⟩ none).add_edge
        ⟨"e1", "B", "C", true⟩ none).add_edge ⟨"e9", "A", "B", true⟩ none).remove_edge
        ⟨"e9", "A", "B", true⟩).1.successors) "A" =
      rowL (((NodeDict.init.add_edge ⟨"e0", "A", "C", true⟩ none).add_edge
        ⟨"e1", "B", "C", true⟩ none).successors) "A" := by
  have h := add_remove_round_trip
    ((NodeDict.init.add_edge ⟨"e0", "A", "C", true⟩ none).add_edge
      ⟨"e1", "B", "C", true⟩ none)
    ⟨"e9", "A", "B", true⟩
    ⟨[("C", "C")], [("e0", ⟨"e0", "A", "C", true⟩)], .pyset []⟩
    ⟨[("C", "C")], [("e1", ⟨"e1", "B", "C", true⟩)], .pyset []⟩
    (by decide) (by decide) (by decide) (by decide) (by decide) (by decide)
    (by decide) (by decide) (by decide) (by decide) (by decide) (by decide)
    (by decide) (by decide) (by decide)
    (reach_degInv _ (NodeDict.Reach.add _ ⟨"e1", "B", "C", true⟩ none
      (NodeDict.Reach.add _ ⟨"e0", "A", "C", true⟩ none NodeDict.Reach.init)))
  exact ⟨h.1, (h.2 "A").1⟩

/-- **C2** counterexample: with a parallel edge `e2 = (A, B)` already
registered, adding a second edge `e1 = (A, B)` (distinct uid, not currently
registered) and removing it completes but does not restore `A`'s successor
set — the entry contributed by `e2` is deleted with it. -/
theorem round_trip_with_parallel_edge_cex :
    (((NodeDict.init.add_edge ⟨"e2", "A", "B", true⟩ none).add_edge
        ⟨"e1", "A", "B", true⟩ none).remove_edge ⟨"e1", "A", "B", true⟩).2 = none ∧
    ¬ (rowL (((NodeDict.init.add_edge ⟨"e2", "A", "B", true⟩ none).add_edge
        ⟨"e1", "A", "B", true⟩ none).remove_edge ⟨"e1", "A", "B", true⟩).1.successors "A" =
      rowL (NodeDict.init.add_edge ⟨"e2", "A", "B", true⟩ none).successors "A") := by
  decide

/-- **C3** counterexample: an `EdgeDict` holding zero edges yields `True`
(`all` of an empty sequence), not the indeterminate `None` result. -/
theorem edgeDict_directed_empty_cex :
    EdgeDict.directed ⟨[]⟩ = some true ∧ ¬ (EdgeDict.directed ⟨[]⟩ = none) := by
  decide

/-- **C3** (amended): `directed` is `True` exactly when every stored edge is
directed — vacuously including the zero-edge index —, `False` exactly when
the index is non-empty and no stored edge is directed, and the indeterminate
`None` exactly when directed and undirected edges are mixed. -/
theorem edgeDict_directed_characterization (d : EdgeDict) :
    (d.directed = some true ↔ ∀ e ∈ valuesL d.store, e.directed = true) ∧
    (d.directed = some false ↔
      d.store ≠ [] ∧ ∀ e ∈ valuesL d.store, e.directed = false) ∧
    (d.directed = none ↔
      (∃ e ∈ valuesL d.store, e.directed = true) ∧
      (∃ e ∈ valuesL d.store, e.directed = false)) := by
  have hvals : ∀ e : Edge, e ∈ valuesL d.store → d.store ≠ [] := by
    intro e he hnil
    rw [hnil] at he
    simp [valuesL] at he
  cases hA : (valuesL d.store).all (fun e => e.directed) with
  | true =>
    have hall := List.all_eq_true.mp hA
    simp only [EdgeDict.directed, hA, if_true]
    refine ⟨⟨fun _ => hall, fun _ => trivial⟩, ?_, ?_⟩
    · refine ⟨fun h => absurd h (by decide), ?_⟩
      rintro ⟨hne, hforall⟩
      rcases List.exists_mem_of_ne_nil (valuesL d.store)
        (by simpa [valuesL] using hne) with ⟨e0, he0⟩
      have h1 := hforall e0 he0
      rw [hall e0 he0] at h1
      exact absurd h1 (by decide)
    · refine ⟨fun h => absurd h (by decide), ?_⟩
      rintro ⟨-, e0, he0, hfalse⟩
      rw [hall e0 he0] at hfalse
      exact absurd hfalse (by decide)
  | false =>
    have hA' : ¬ ∀ e ∈ valuesL d.store, e.directed = true := by
      intro h
      rw [List.all_eq_true.mpr h] at hA
      cases hA
    push_neg at hA'
    obtain ⟨e0, he0, hd0⟩ := hA'
    have hd0' : e0.directed = false := by
      cases h : e0.directed
      · rfl
      · exact absurd h hd0
    cases hN : (valuesL d.store).any (fun e => e.directed) with
    | true =>
      obtain ⟨e1, he1, hd1⟩ := List.any_eq_true.mp hN
      simp only [EdgeDict.directed, hA, hN, Bool.not_true, if_false]
      refine ⟨?_, ?_, ⟨fun _ => ⟨⟨e1, he1, hd1⟩, ⟨e0, he0, hd0'⟩⟩, fun _ => by decide⟩⟩
      · refine ⟨fun h => absurd h (by decide), ?_⟩
        intro hforall
        rw [hforall e0 he0] at hd0'
        exact absurd hd0' (by decide)
      · refine ⟨fun h => absurd h (by decide), ?_⟩
        rintro ⟨-, hforall⟩
        rw [hforall e1 he1] at hd1
        exact absurd hd1 (by decide)
    | false =>
      have hallf : ∀ e ∈ valuesL d.store, e.directed = false := by
        intro e he
        have := List.any_eq_false.mp hN e he
        cases h : e.directed
        · rfl
        · exact absurd h this
      simp only [EdgeDict.directed, hA, hN, Bool.not_false, if_false, if_true]
      refine ⟨?_, ⟨fun _ => ⟨hvals e0 he0, hallf⟩, fun _ => by decide⟩, ?_⟩
      · refine ⟨fun h => absurd h (by decide), ?_⟩
        intro hforall
        rw [hforall e0 he0] at hd0'
        exact absurd hd0' (by decide)
      · refine ⟨fun h => absurd h (by decide), ?_⟩
        rintro ⟨⟨e1, he1, hd1⟩, -⟩
        rw [hallf e1 he1] at hd1
        exact absurd hd1 (by decide)

theorem edgeDict_directed_characterization_witness :
    EdgeDict.directed ⟨[("e1", ⟨"e1", "A", "B", true⟩)]⟩ = some true :=
  (edgeDict_directed_characterization _).1.mpr (by decide)

/-- **C4**: slicing the three-interval index `[0,5), [3,8), [10,12)` at
`(4, 6)` yields exactly the two truncated pieces `[4,5)` (first edge) and
`[4,6)` (second edge), with the third edge absent; and in general every
interval stored in the result of `slice(begin, end)` is fully contained in
the window `[begin, end)`. -/
theorem temporal_slice_window :
    (TemporalEdgeCollection.slice
        ⟨treeAddi (treeAddi (treeAddi [] (.fin 0) (.fin 5) "e1") (.fin 3) (.fin 8) "e2")
          (.fin 10) (.fin 12) "e3"⟩ (.fin 4) (.fin 6)).intervals =
      [⟨.fin 4, .fin 5, "e1"⟩, ⟨.fin 4, .fin 6, "e2"⟩] ∧
    ∀ (c : TemporalEdgeCollection) (lo hi : ETime),
      ∀ iv ∈ (c.slice lo hi).intervals,
        ETime.ble lo iv.b = true ∧ ETime.ble iv.e hi = true :=
  ⟨by decide, fun c lo hi => slice_subset_window c lo hi⟩

theorem temporal_slice_window_witness :
    ETime.ble (.fin 4) (.fin 4) = true ∧ ETime.ble (.fin 5) (.fin 6) = true :=
  temporal_slice_window.2 ⟨[⟨.fin 1, .fin 5, "e1"⟩]⟩ (.fin 4) (.fin 6)
    ⟨.fin 4, .fin 5, "e1"⟩ (by decide)

/-- **C5** counterexample: writing a value under an existing key discards the
key's non-empty `RelatedObjects` record and replaces it with a fresh empty
one. -/
theorem setItem_resets_existing_related_cex :
    lookupL ((BaseDict.setItem
        (⟨[("A", (1 : Int))], [("A", ⟨[("B", "B")], [], .pyset []⟩)], []⟩ : BaseDict Int)
        "A" 2).related) "A" = some RelatedObjects.init ∧
    ¬ (lookupL ((BaseDict.setItem
        (⟨[("A", (1 : Int))], [("A", ⟨[("B", "B")], [], .pyset []⟩)], []⟩ : BaseDict Int)
        "A" 2).related) "A" =
      lookupL ([("A", ⟨[("B", "B")], [], .pyset []⟩)] : SMap RelatedObjects) "A") := by
  decide

/-- **C5** (amended): `__setitem__` unconditionally allocates a fresh empty
`RelatedObjects` record for the written key — also when the key already
exists — while every other key's record and stored value are untouched. -/
theorem setItem_always_fresh_related {α : Type} (d : BaseDict α) (k : String)
    (v : α) (j : String) (hj : j ≠ k) :
    lookupL (d.setItem k v).related k = some RelatedObjects.init ∧
    lookupL (d.setItem k v).store k = some v ∧
    lookupL (d.setItem k v).related j = lookupL d.related j ∧
    lookupL (d.setItem k v).store j = lookupL d.store j := by
  unfold BaseDict.setItem
  exact ⟨lookupL_insertL_self _ _ _, lookupL_insertL_self _ _ _,
    lookupL_insertL_ne _ _ _ _ hj, lookupL_insertL_ne _ _ _ _ hj⟩

theorem setItem_always_fresh_related_witness :
    lookupL ((BaseDict.setItem (⟨[], [], []⟩ : BaseDict Int) "A" 1).related) "A" =
      some RelatedObjects.init ∧
    lookupL ((BaseDict.setItem (⟨[], [], []⟩ : BaseDict Int) "A" 1).store) "A" = some 1 ∧
    lookupL ((BaseDict.setItem (⟨[], [], []⟩ : BaseDict Int) "A" 1).related) "B" =
      lookupL ([] : SMap RelatedObjects) "B" ∧
    lookupL ((BaseDict.setItem (⟨[], [], []⟩ : BaseDict Int) "A" 1).store) "B" =
      lookupL ([] : SMap Int) "B" :=
  setItem_always_fresh_related (⟨[], [], []⟩ : BaseDict Int) "A" 1 "B" (by decide)

/-- **C6** counterexample: after `delete("B")` completes on the index built by
`add_edge(e1, A, B)`, node `A`'s successor set still contains the dangling
reference to `B`. -/
theorem delete_leaves_dangling_successor_cex :
    ((NodeDict.init.add_edge ⟨"e1", "A", "B", true⟩ none).delete "B").2 = none ∧
    containsL (rowL ((NodeDict.init.add_edge ⟨"e1", "A", "B", true⟩ none).delete
      "B").1.successors "A") "B" = true := by
  decide

/-- **C6** (amended): `delete(n)` drops only `n`'s own rows — every other
node's successor, predecessor and adjacent-node row is left exactly as it
was, so references to `n` held in those rows survive the deletion. -/
theorem delete_touches_only_own_rows (nd : NodeDict) (n j : String) (hj : j ≠ n) :
    rowL (nd.delete n).1.successors j = rowL nd.successors j ∧
    rowL (nd.delete n).1.predecessors j = rowL nd.predecessors j ∧
    rowL (nd.delete n).1.adjacent_nodes j = rowL nd.adjacent_nodes j :=
  delete_frame_rows nd n j hj

theorem delete_touches_only_own_rows_witness :
    rowL (((NodeDict.init.add_edge ⟨"e1", "A", "B", true⟩ none).delete
        "B").1.successors) "A" =
      rowL ((NodeDict.init.add_edge ⟨"e1", "A", "B", true⟩ none).successors) "A" ∧
    rowL (((NodeDict.init.add_edge ⟨"e1", "A", "B", true⟩ none).delete
        "B").1.predecessors) "A" =
      rowL ((NodeDict.init.add_edge ⟨"e1", "A", "B", true⟩ none).predecessors) "A" ∧
    rowL (((NodeDict.init.add_edge ⟨"e1", "A", "B", true⟩ none).delete
        "B").1.adjacent_nodes) "A" =
      rowL ((NodeDict.init.add_edge ⟨"e1", "A", "B", true⟩ none).adjacent_nodes) "A" :=
  delete_touches_only_own_rows (NodeDict.init.add_edge ⟨"e1", "A", "B", true⟩ none)
    "B" "A" (by decide)

/-- **C7**: on the two-interval index `[-inf, 3), [1, 5)`, `begin(finite=True)`
returns `1` and `end(finite=True)` returns `5`; and in general (for interval
sets with well-formed intervals and at least one finite bound) `finite=True`
skips the infinite sentinels: `begin` returns the least finite bound stored
and `end` the greatest. -/
theorem temporal_begin_end_finite :
    (TemporalEdgeCollection.begin ⟨[⟨.ninf, .fin 3, "e1"⟩, ⟨.fin 1, .fin 5, "e2"⟩]⟩ true =
        some (ETime.fin 1) ∧
      TemporalEdgeCollection.endT ⟨[⟨.ninf, .fin 3, "e1"⟩, ⟨.fin 1, .fin 5, "e2"⟩]⟩ true =
        some (ETime.fin 5)) ∧
    ∀ (c : TemporalEdgeCollection),
      (∀ iv ∈ c.intervals, ETime.blt iv.b iv.e = true) →
      finBounds c.intervals ≠ [] →
      (∃ m, c.begin true = some m ∧ m ∈ finBounds c.intervals ∧
        ∀ x ∈ finBounds c.intervals, ETime.ble m x = true) ∧
      (∃ M, c.endT true = some M ∧ M ∈ finBounds c.intervals ∧
        ∀ x ∈ finBounds c.intervals, ETime.ble x M = true) :=
  ⟨by decide, fun c hwf hfb =>
    ⟨beginFin_is_min_finite_bound c hwf hfb, endFin_is_max_finite_bound c hwf hfb⟩⟩

theorem temporal_begin_end_finite_witness :
    (∃ m, TemporalEdgeCollection.begin
        ⟨[⟨.ninf, .fin 3, "e1"⟩, ⟨.fin 1, .fin 5, "e2"⟩]⟩ true = some m ∧
      m ∈ finBounds [⟨.ninf, .fin 3, "e1"⟩, ⟨.fin 1, .fin 5, "e2"⟩] ∧
      ∀ x ∈ finBounds [⟨.ninf, .fin 3, "e1"⟩, ⟨.fin 1, .fin 5, "e2"⟩],
        ETime.ble m x = true) ∧
    (∃ M, TemporalEdgeCollection.endT
        ⟨[⟨.ninf, .fin 3, "e1"⟩, ⟨.fin 1, .fin 5, "e2"⟩]⟩ true = some M ∧
      M ∈ finBounds [⟨.ninf, .fin 3, "e1"⟩, ⟨.fin 1, .fin 5, "e2"⟩] ∧
      ∀ x ∈ finBounds [⟨.ninf, .fin 3, "e1"⟩, ⟨.fin 1, .fin 5, "e2"⟩],
        ETime.ble x M = true) :=
  temporal_begin_end_finite.2 ⟨[⟨.ninf, .fin 3, "e1"⟩, ⟨.fin 1, .fin 5, "e2"⟩]⟩
    (by decide) (by decide)

/-- **C8**: `add_path` never adds anything — `self.paths` is a Python `set`,
so the item assignment `self.paths[path.uid] = path` raises `TypeError` on
every record and every path; in particular the add-then-remove round trip of
the claim is impossible. -/
theorem add_path_always_raises :
    (∀ (r : RelatedObjects) (p : String), ∃ msg, r.add_path p = .error msg) ∧
    RelatedObjects.init.add_path "p1" =
      .error "TypeError: 'set' object does not support item assignment" := by
  constructor
  · intro r p
    cases r with
    | mk nodes edges paths =>
      cases paths with
      | pyset es => exact ⟨_, rfl⟩
  · rfl

/-- **C9**: the stored interval of a temporal edge is `[ts, ts + d)` when a
numeric timestamp `ts` and duration `d` are both given, `[ts, ts + dv)` with
the configured default duration `dv` when only the timestamp is given, and
`[-inf, +inf)` when neither a timestamp nor explicit bounds are given. -/
theorem temporal_add_edge_bounds (c : TemporalEdgeCollection) (dv : Int)
    (uid : String) (b? e? : Option ETime) (ts d : Int) :
    (TemporalNetwork.add_edge c dv uid b? e? (some ts) (some d)).intervals =
      treeAddi c.intervals (ETime.fin ts) (ETime.fin (ts + d)) uid ∧
    (TemporalNetwork.add_edge c dv uid b? e? (some ts) none).intervals =
      treeAddi c.intervals (ETime.fin ts) (ETime.fin (ts + dv)) uid ∧
    (TemporalNetwork.add_edge c dv uid none none none none).intervals =
      treeAddi c.intervals ETime.ninf ETime.pinf uid :=
  ⟨rfl, rfl, rfl⟩

/-- **C10**: removing a registered self-loop never completes: the second
deletion of the node relation raises a missing-identifier error, and at the
failure point the node's successor, outgoing and adjacent sets have been
retracted while its predecessor and incoming sets and all cached degrees are
untouched — a partially-retracted state. -/
theorem remove_edge_self_loop_fails (nd : NodeDict) (e : Edge) (r : RelatedObjects)
    (hloop : e.v = e.w)
    (hr : lookupL nd.related e.v = some r)
    (h1 : containsL r.edges e.uid = true)
    (h2 : containsL r.nodes e.w = true)
    (h3 : containsL (rowL nd.successors e.v) e.w = true)
    (h4 : containsL (rowL nd.adjacent_nodes e.v) e.w = true)
    (h5 : containsL (rowL nd.outgoing e.v) e.uid = true)
    (h6 : containsL (rowL nd.adjacent_edges e.v) e.uid = true) :
    nd.remove_edge e =
      ({ store := nd.store
         related := insertL nd.related e.v
           { r with edges := eraseL r.edges e.uid, nodes := eraseL r.nodes e.w }
         successors := insertL nd.successors e.v (eraseL (rowL nd.successors e.v) e.w)
         predecessors := nd.predecessors
         outgoing := insertL nd.outgoing e.v (eraseL (rowL nd.outgoing e.v) e.uid)
         incoming := nd.incoming
         adjacent_nodes := insertL nd.adjacent_nodes e.v
           (eraseL (rowL nd.adjacent_nodes e.v) e.w)
         adjacent_edges := insertL nd.adjacent_edges e.v
           (eraseL (rowL nd.adjacent_edges e.v) e.uid)
         indegrees := nd.indegrees
         outdegrees := nd.outdegrees
         degrees := nd.degrees },
        some "KeyError") := by
  unfold NodeDict.remove_edge edgeNodes
  rw [if_pos hloop]
  simp only [List.foldl_cons, List.foldl_nil, stepE_none]
  exact removeEdgeNode_loop_err_spec nd e e.v r rfl hloop hr h1 h2 h3 h4 h5 h6

theorem remove_edge_self_loop_fails_witness :
    ((NodeDict.init.add_edge ⟨"e1", "A", "A", true⟩ none).remove_edge
      ⟨"e1", "A", "A", true⟩).2 = some "KeyError" := by
  have h := remove_edge_self_loop_fails
    (NodeDict.init.add_edge ⟨"e1", "A", "A", true⟩ none) ⟨"e1", "A", "A", true⟩
    ⟨[("A", "A")], [("e1", ⟨"e1", "A", "A", true⟩)], .pyset []⟩
    rfl (by decide) (by decide) (by decide) (by decide) (by decide) (by decide)
    (by decide)
  rw [h]
